import Mathlib

/- Verification of the task-state and transformation engine of the
   menteora/react-todo-list repository (App.tsx and TodoList.tsx).
   JS strings are modelled as lists of characters, timestamps as integers,
   crypto.randomUUID as an explicit id supply, Date.now() as a parameter. -/

namespace TodoApp

/-- Characters treated as whitespace by trimming and by parseInt (the ASCII part of
    the JS whitespace set; all data handled here is ASCII). -/
def isWS (c : Char) : Bool :=
  c = ' ' || c = '\t' || c = '\n' || c = '\r' || c = '\x0B' || c = '\x0C'

/-- Model of String.prototype.trim. -/
def trimChars (l : List Char) : List Char :=
  ((l.dropWhile isWS).reverse.dropWhile isWS).reverse

/-- Model of String.prototype.toLowerCase on ASCII data. -/
def toLowerChars (l : List Char) : List Char := l.map Char.toLower

/-- Characters of a Lean string literal, used to write JS string constants. -/
def jstr (s : String) : List Char := s.data

def splitOnCharAux (sep : Char) : List Char → List Char → List (List Char)
  | [], acc => [acc.reverse]
  | c :: rest, acc =>
    if c = sep then acc.reverse :: splitOnCharAux sep rest []
    else splitOnCharAux sep rest (c :: acc)

/-- Model of String.prototype.split with a single-character separator. -/
def splitOnChar (sep : Char) (l : List Char) : List (List Char) := splitOnCharAux sep l []

def splitLinesAux : List Char → List Char → List (List Char)
  | [], acc => [acc.reverse]
  | c :: rest, acc =>
    if c = '\n' then
      (if acc.head? = some '\r' then acc.tail.reverse else acc.reverse) ::
        splitLinesAux rest []
    else splitLinesAux rest (c :: acc)

/-- Model of text.split on the regex matching an optional carriage return followed by
    a newline: a split happens at every newline, and the single carriage return
    directly before it (the head of the reversed accumulator) is consumed by the
    separator match; a carriage return not followed by a newline stays in its piece. -/
def splitLines (l : List Char) : List (List Char) := splitLinesAux l []

/-- Model of Array.prototype.join with a single-character separator. -/
def intercalateChar (sep : Char) : List (List Char) → List Char
  | [] => []
  | [p] => p
  | p :: q :: rest => p ++ sep :: intercalateChar sep (q :: rest)

/-- Character class of the tag regex: ASCII letters, digits, underscore. -/
def isWordChar (c : Char) : Bool :=
  decide (('a' ≤ c ∧ c ≤ 'z') ∨ ('A' ≤ c ∧ c ≤ 'Z') ∨ ('0' ≤ c ∧ c ≤ '9') ∨ c = '_')

/-- Model of the global scan for the tag regex (a hash sign followed by one or more
    word characters), collecting group 1 of each match in order. The state some run
    means the scan is inside a candidate tag whose characters are in run, reversed;
    a candidate with an empty run is not a match (the regex needs at least one word
    character after the hash sign). -/
def extractTagsScan : List Char → Option (List Char) → List (List Char)
  | [], none => []
  | [], some run => if run = [] then [] else [run.reverse]
  | c :: rest, none =>
    if c = '#' then extractTagsScan rest (some []) else extractTagsScan rest none
  | c :: rest, some run =>
    if isWordChar c then extractTagsScan rest (some (c :: run))
    else
      (if run = [] then [] else [run.reverse]) ++
        (if c = '#' then extractTagsScan rest (some []) else extractTagsScan rest none)

/-- Model of adding one element to a JS Set: kept once, in first-insertion order. -/
def insertDistinct (acc : List (List Char)) (t : List Char) : List (List Char) :=
  if t ∈ acc then acc else acc ++ [t]

/-- Model of extractTags from App.tsx. -/
def extractTags (text : List Char) : List (List Char) :=
  (extractTagsScan text none).foldl insertDistinct []

structure Todo where
  id : List Char
  text : List Char
  completed : Bool
  createdAt : Int
  isForToday : Bool
  isRecurring : Bool
  tags : List (List Char)
deriving DecidableEq

/-- Model of addTodo: the new task is placed at the head of the collection. -/
def addTodo (todos : List Todo) (text : List Char) (newId : List Char) (now : Int) : List Todo :=
  ⟨newId, text, false, now, false, false, extractTags text⟩ :: todos

/-- Model of toggleComplete, including the defensive reset branch for a recurring
    backlog template. -/
def toggleComplete (todos : List Todo) (i : List Char) : List Todo :=
  todos.map fun todo =>
    if todo.id == i then
      if todo.isRecurring && !todo.isForToday then
        { todo with completed := false, isForToday := false }
      else
        { todo with completed := !todo.completed }
    else todo

/-- Model of deleteTodo. -/
def deleteTodo (todos : List Todo) (i : List Char) : List Todo :=
  todos.filter fun todo => todo.id != i

/-- Model of toggleIsForToday: a recurring backlog template spawns a fresh instance
    appended at the end; otherwise the flag is flipped in place. -/
def toggleIsForToday (todos : List Todo) (i : List Char) (newId : List Char) (now : Int) :
    List Todo :=
  match todos.find? (fun todo => todo.id == i) with
  | none => todos
  | some taskToToggle =>
    if taskToToggle.isRecurring && !taskToToggle.isForToday then
      todos ++ [⟨newId, taskToToggle.text, false, now, true, false, taskToToggle.tags⟩]
    else
      todos.map fun todo =>
        if todo.id == i then { todo with isForToday := !todo.isForToday } else todo

/-- Model of editTodo. -/
def editTodo (todos : List Todo) (i : List Char) (newText : List Char) : List Todo :=
  todos.map fun todo =>
    if todo.id == i then { todo with text := newText, tags := extractTags newText } else todo

/-- Model of toggleIsRecurring: turning a task recurring forces it out of today. -/
def toggleIsRecurring (todos : List Todo) (i : List Char) : List Todo :=
  todos.map fun todo =>
    if todo.id == i then
      { todo with isRecurring := !todo.isRecurring,
                  isForToday := if !todo.isRecurring then false else todo.isForToday }
    else todo

/-- Sort comparator of sortedTodos, as the relation: a may stay before b exactly when
    compare(a, b) is nonpositive. -/
def todoBefore (a b : Todo) : Bool :=
  if a.completed != b.completed then !a.completed
  else decide (b.createdAt ≤ a.createdAt)

def insertTodoSorted (x : Todo) : List Todo → List Todo
  | [] => [x]
  | y :: rest => if todoBefore x y then x :: y :: rest else y :: insertTodoSorted x rest

/-- Model of sortedTodos: Array.prototype.sort is required to be stable, and for the
    consistent comparator above the stable result equals insertion sort by todoBefore. -/
def sortedTodos (todos : List Todo) : List Todo := todos.foldr insertTodoSorted []

/-- The today list handed to the TodoList component (no active tag filter). -/
def todayTodos (todos : List Todo) : List Todo := (sortedTodos todos).filter (·.isForToday)

structure GroupedCompletedTodo where
  representativeTodo : Todo
  instanceIds : List (List Char)
  completionCount : Nat
  firstCompletedAt : Int
deriving DecidableEq

/-- Model of one forEach step over the insertion-ordered Map of groups in TodoList:
    the key of a group is the text of its representative. -/
def addToGroup (gs : List GroupedCompletedTodo) (task : Todo) : List GroupedCompletedTodo :=
  match gs with
  | [] => [⟨task, [task.id], 1, task.createdAt⟩]
  | g :: rest =>
    if g.representativeTodo.text == task.text then
      { g with instanceIds := g.instanceIds ++ [task.id],
               completionCount := g.instanceIds.length + 1 } :: rest
    else g :: addToGroup rest task

/-- Group sort comparator as a relation, descending firstCompletedAt. -/
def groupBefore (a b : GroupedCompletedTodo) : Bool :=
  decide (b.firstCompletedAt ≤ a.firstCompletedAt)

def insertGroupSorted (x : GroupedCompletedTodo) :
    List GroupedCompletedTodo → List GroupedCompletedTodo
  | [] => [x]
  | y :: rest => if groupBefore x y then x :: y :: rest else y :: insertGroupSorted x rest

/-- Model of the completed-task grouping of the today-focus TodoList: completed tasks,
    grouped in the Map insertion order, then stably sorted by firstCompletedAt
    descending. -/
def groupedCompletedTodos (todos : List Todo) : List GroupedCompletedTodo :=
  ((todos.filter (·.completed)).foldl addToGroup []).foldr insertGroupSorted []

/-- Grouping of the full pipeline: collection, sorted, restricted to today, grouped. -/
def todayCompletedGroups (todos : List Todo) : List GroupedCompletedTodo :=
  groupedCompletedTodos (todayTodos todos)

def natToDigitsAux : Nat → Nat → List Char
  | 0, _ => []
  | fuel + 1, n =>
    if n < 10 then [Char.ofNat (48 + n)]
    else natToDigitsAux fuel (n / 10) ++ [Char.ofNat (48 + n % 10)]

def natToDigits (n : Nat) : List Char := natToDigitsAux (n + 1) n

/-- Model of JS String(number) for integral values in the safe range. -/
def intStr (n : Int) : List Char :=
  if n < 0 then '-' :: natToDigits (-n).toNat else natToDigits n.toNat

/-- Model of JS String(boolean). -/
def boolStr (b : Bool) : List Char := if b then jstr "true" else jstr "false"

/-- Model of the global replace of each double quote by two double quotes. -/
def escapeQuotesJS : List Char → List Char
  | [] => []
  | c :: rest => (if c = '"' then ['"', '"'] else [c]) ++ escapeQuotesJS rest

/-- Model of escapeCSVField. -/
def escapeCSVField (s : List Char) : List Char :=
  if ',' ∈ s ∨ '"' ∈ s ∨ '\n' ∈ s then '"' :: (escapeQuotesJS s ++ ['"'])
  else s

def exportHeaderLine : List Char := jstr "id,text,completed,createdAt,isForToday,isRecurring,tags"

/-- The seven per-task field strings of one exported row, in header order; tags are
    semicolon-joined before escaping. -/
def exportFields (todo : Todo) : List (List Char) :=
  [todo.id, todo.text, boolStr todo.completed, intStr todo.createdAt,
   boolStr todo.isForToday, boolStr todo.isRecurring, intercalateChar ';' todo.tags]

def exportRow (todo : Todo) : List Char :=
  intercalateChar ',' ((exportFields todo).map escapeCSVField)

/-- Model of commonCSVExport: the CSV text written to the downloaded file. -/
def commonCSVExport (todos : List Todo) : List Char :=
  intercalateChar '\n' (exportHeaderLine :: todos.map exportRow)

/-- Model of the row-splitting regex of parseCSVTextToTodos: a comma is a split point
    exactly when it is followed by an even number of double quotes up to the end of
    the line (the lookahead of the regex). -/
def splitCSVRowAux : List Char → List Char → List (List Char)
  | [], acc => [acc.reverse]
  | c :: cs, acc =>
    if c = ',' ∧ cs.count '"' % 2 = 0 then acc.reverse :: splitCSVRowAux cs []
    else splitCSVRowAux cs (c :: acc)

def splitCSVRow (l : List Char) : List (List Char) := splitCSVRowAux l []

/-- Model of String.prototype.substring with its argument swapping and clamping. -/
def jsSubstring (l : List Char) (a b : Nat) : List Char :=
  let a' := min a l.length
  let b' := min b l.length
  (l.take (max a' b')).drop (min a' b')

/-- Model of the global replace of two adjacent double quotes by one (left to right,
    non-overlapping, as a global regex replace proceeds). -/
def unescapeQuotes : List Char → List Char
  | [] => []
  | [c] => [c]
  | c :: d :: rest =>
    if c = '"' ∧ d = '"' then '"' :: unescapeQuotes rest
    else c :: unescapeQuotes (d :: rest)

/-- Per-value cleanup of parseCSVTextToTodos: trim, then if the value both starts and
    ends with a double quote, strip them via substring and unescape doubled quotes. -/
def cleanField (v : List Char) : List Char :=
  let t := trimChars v
  if t.head? = some '"' ∧ t.getLast? = some '"' then
    unescapeQuotes (jsSubstring t 1 (t.length - 1))
  else t

def csvValues (line : List Char) : List (List Char) := (splitCSVRow line).map cleanField

/-- Model of the rowData object: each header name maps to the value at the same index
    (a later duplicate header overwrites an earlier one), the empty string when the
    row is short, none when the header name does not occur at all. -/
def getField (headers values : List (List Char)) (name : List Char) : Option (List Char) :=
  match ((List.range headers.length).filter fun idx => headers.getD idx [] = name).getLast? with
  | none => none
  | some idx => some (values.getD idx [])

/-- Model of parseInt(v, 10): skip leading whitespace, optional sign, longest digit
    run; none models NaN. -/
def jsParseInt (l : List Char) : Option Int :=
  let t := l.dropWhile isWS
  let signAndRest : Int × List Char :=
    match t with
    | '-' :: r => (-1, r)
    | '+' :: r => (1, r)
    | r => (1, r)
  let digits := signAndRest.2.takeWhile Char.isDigit
  if digits = [] then none
  else some (signAndRest.1 * (digits.foldl (fun acc c => acc * 10 + (c.toNat - 48)) 0 : Nat))

/-- Model of r || dflt on a parseInt result: NaN and 0 are falsy. -/
def jsOr (r : Option Int) (dflt : Int) : Int :=
  match r with
  | none => dflt
  | some n => if n = 0 then dflt else n

/-- Model of String(rowData.f).toLowerCase() compared with the string true; an absent
    field stringifies to the string undefined, which is not equal to it. -/
def parseBoolField (v : Option (List Char)) : Bool :=
  match v with
  | some s => toLowerChars s == jstr "true"
  | none => false

/-- Header names of the first CSV line: split on commas, trimmed, lowercased. -/
def headersOf (headerLine : List Char) : List (List Char) :=
  (splitOnChar ',' headerLine).map fun h => toLowerChars (trimChars h)

/-- Per-row conversion of parseCSVTextToTodos; none when the trimmed row is blank or
    its text field is empty (the row is skipped). -/
def parseRow (headers : List (List Char)) (force : Bool) (now : Int)
    (newId : List Char) (rawLine : List Char) : Option Todo :=
  let line := trimChars rawLine
  if line = [] then none
  else
    let values := csvValues line
    let textVal := (getField headers values (jstr "text")).getD []
    if textVal = [] then none
    else
      let tagsStr := (getField headers values (jstr "tags")).getD []
      let tags :=
        if tagsStr = [] then extractTags textVal
        else ((splitOnChar ';' tagsStr).map trimChars).filter fun s => !s.isEmpty
      let createdAt :=
        jsOr (jsParseInt ((getField headers values (jstr "createdat")).getD [])) now
      if force then some ⟨newId, textVal, false, createdAt, false, true, tags⟩
      else some ⟨newId, textVal,
        parseBoolField (getField headers values (jstr "completed")), createdAt,
        parseBoolField (getField headers values (jstr "isfortoday")),
        parseBoolField (getField headers values (jstr "isrecurring")), tags⟩

/-- Data rows in order; the counter k supplies one fresh id per emitted task. -/
def parseRows (headers : List (List Char)) (force : Bool) (now : Int)
    (idGen : Nat → List Char) : List (List Char) → Nat → List Todo
  | [], _ => []
  | line :: rest, k =>
    match parseRow headers force now (idGen k) line with
    | none => parseRows headers force now idGen rest k
    | some t => t :: parseRows headers force now idGen rest (k + 1)

/-- Model of parseCSVTextToTodos; idGen models crypto.randomUUID (one fresh id per
    emitted task), now models Date.now(). The first error branch mirrors the
    empty-lines check of the source (unreachable, since a split is never empty). -/
def parseCSVTextToTodos (text : List Char) (forceRecurringTemplate : Bool)
    (idGen : Nat → List Char) (now : Int) : Except (List Char) (List Todo) :=
  match splitLines text with
  | [] => Except.error (jstr "CSV file is empty or has no header.")
  | headerLine :: rest =>
    if jstr "text" ∈ headersOf headerLine then
      Except.ok (parseRows (headersOf headerLine) forceRecurringTemplate now idGen rest 0)
    else Except.error (jstr "CSV file is missing required headers: text.")

/-- Row accepted by the importer: non-blank after trimming, non-empty text field. -/
def validRow (headers : List (List Char)) (rawLine : List Char) : Bool :=
  !(trimChars rawLine).isEmpty &&
    !((getField headers (csvValues (trimChars rawLine)) (jstr "text")).getD []).isEmpty

/-- Model of handleImportCSV: on success the parsed tasks replace the collection, on
    a parse error the collection is left unchanged. -/
def handleImportCSV (old : List Todo) (text : List Char) (idGen : Nat → List Char)
    (now : Int) : List Todo :=
  match parseCSVTextToTodos text false idGen now with
  | Except.error _ => old
  | Except.ok ts => ts

/-- Model of handleImportRecurringCSV: parsed template tasks are appended. -/
def handleImportRecurringCSV (old : List Todo) (text : List Char) (idGen : Nat → List Char)
    (now : Int) : List Todo :=
  match parseCSVTextToTodos text true idGen now with
  | Except.error _ => old
  | Except.ok ts => old ++ ts

/-- No task is at once a recurring template and a today item. -/
def NoBoth (l : List Todo) : Prop :=
  ∀ t ∈ l, ¬(t.isRecurring = true ∧ t.isForToday = true)

/-- Correctness statement of the grouping fold: gs describes the processed list done
    group by group. For each group, the representative is the first task of done with
    the group's text, the member ids are the ids of all such tasks in order, the
    count is their number, and the timestamp equals the representative's createdAt;
    every processed task has a group, and group keys are pairwise distinct. -/
def GroupsSpec (done : List Todo) (gs : List GroupedCompletedTodo) : Prop :=
  (∀ g ∈ gs,
    done.find? (fun u => u.text == g.representativeTodo.text) = some g.representativeTodo ∧
    g.instanceIds =
      (done.filter fun u => u.text == g.representativeTodo.text).map Todo.id ∧
    g.completionCount =
      (done.filter fun u => u.text == g.representativeTodo.text).length ∧
    g.firstCompletedAt = g.representativeTodo.createdAt) ∧
  (∀ u ∈ done, ∃ g ∈ gs, g.representativeTodo.text = u.text) ∧
  (gs.map fun g => g.representativeTodo.text).Nodup

/-- Descending order on groups used by the final sort. -/
def groupGE (a b : GroupedCompletedTodo) : Prop :=
  b.firstCompletedAt ≤ a.firstCompletedAt

/-- The fields of a task that the round-trip claim compares (ids may differ and
    createdAt is not part of the claim); tags are compared here as lists, which is
    stronger than the set comparison of the claim. -/
def roundTripView (t : Todo) : List Char × Bool × Bool × Bool × List (List Char) :=
  (t.text, t.completed, t.isForToday, t.isRecurring, t.tags)

/-- Conditions on a single task under which the CSV export text survives the
    line/field/value processing of the importer unchanged: the text is non-empty
    (else the row is skipped), contains no newline (the parser splits lines before
    unquoting) and is already trimmed (values are trimmed on import); the id is
    newline-free and trimmed (it shares the row and its leading blanks would be
    trimmed away with the whole line); every tag is non-empty, trimmed,
    semicolon-free (tags are joined with semicolons) and newline-free; and a task
    with no tags has no #tags extractable from its text (an empty tags field makes
    the importer fall back to extraction from the text). -/
def BenignTodo (t : Todo) : Prop :=
  t.text ≠ [] ∧ trimChars t.text = t.text ∧ '\n' ∉ t.text ∧
  trimChars t.id = t.id ∧ '\n' ∉ t.id ∧
  (∀ tg ∈ t.tags, tg ≠ [] ∧ trimChars tg = tg ∧ ';' ∉ tg ∧ '\n' ∉ tg) ∧
  (t.tags = [] → extractTags t.text = [])

/- General helper lemmas. -/

theorem map_eq_self_of_fixed {α : Type} (l : List α) (f : α → α) (h : ∀ t ∈ l, f t = t) :
    l.map f = l := by
  induction l with
  | nil => rfl
  | cons a rest ih =>
    simp only [List.map_cons]
    rw [h a (by simp), ih (fun t ht => h t (by simp [ht]))]

theorem find?_id_of_mem_nodup (l : List Todo) (tpl : Todo)
    (hmem : tpl ∈ l) (hnodup : (l.map Todo.id).Nodup) :
    l.find? (fun td => td.id == tpl.id) = some tpl := by
  induction l with
  | nil => cases hmem
  | cons u rest ih =>
    rcases List.mem_cons.mp hmem with h | h
    · subst h
      rw [List.find?_cons_of_pos _ (by simp)]
    · have hidne : u.id ≠ tpl.id := by
        intro he
        rw [List.map_cons, List.nodup_cons] at hnodup
        exact hnodup.1 (he ▸ List.mem_map_of_mem Todo.id h)
      rw [List.find?_cons_of_neg _ (by simpa using hidne)]
      exact ih h (by rw [List.map_cons, List.nodup_cons] at hnodup; exact hnodup.2)

theorem nodup_middle_id (l₁ l₂ : List Todo) (t : Todo)
    (hnodup : ((l₁ ++ t :: l₂).map Todo.id).Nodup) :
    t.id ∉ l₁.map Todo.id ∧ t.id ∉ l₂.map Todo.id := by
  rw [List.map_append, List.map_cons, List.nodup_append] at hnodup
  obtain ⟨-, h2, hdisj⟩ := hnodup
  rw [List.nodup_cons] at h2
  exact ⟨fun hmem => hdisj hmem (by simp), h2.1⟩

/-- C2: for every collection whose ids are distinct and that contains a Template (a
    task with isRecurring true and isForToday false) with id i, toggleIsForToday on i
    (with a fresh id for the new instance, modelling crypto.randomUUID) leaves every
    existing record unchanged and appends exactly one new task at the end, whose id
    differs from every existing id, copying the template's text and tags, with
    completed false, createdAt set to the current time, isForToday true and
    isRecurring false. -/
theorem toggleIsForToday_template_spawns_instance
    (l : List Todo) (i newId : List Char) (now : Int) (tpl : Todo)
    (hmem : tpl ∈ l) (hid : tpl.id = i)
    (hrec : tpl.isRecurring = true) (htoday : tpl.isForToday = false)
    (hnodup : (l.map Todo.id).Nodup)
    (hfresh : newId ∉ l.map Todo.id) :
    toggleIsForToday l i newId now =
      l ++ [⟨newId, tpl.text, false, now, true, false, tpl.tags⟩] ∧
    newId ∉ l.map Todo.id := by
  subst hid
  refine ⟨?_, hfresh⟩
  rw [toggleIsForToday, find?_id_of_mem_nodup l tpl hmem hnodup]
  simp [hrec, htoday]

theorem toggleIsForToday_template_spawns_instance_witness :
    toggleIsForToday
        [⟨jstr "u1", jstr "water plants", false, 10, false, true, [jstr "home"]⟩]
        (jstr "u1") (jstr "u2") 99 =
      [⟨jstr "u1", jstr "water plants", false, 10, false, true, [jstr "home"]⟩,
       ⟨jstr "u2", jstr "water plants", false, 99, true, false, [jstr "home"]⟩] ∧
    jstr "u2" ∉ ([⟨jstr "u1", jstr "water plants", false, 10, false, true,
        [jstr "home"]⟩] : List Todo).map Todo.id :=
  toggleIsForToday_template_spawns_instance _ _ _ _
    ⟨jstr "u1", jstr "water plants", false, 10, false, true, [jstr "home"]⟩
    (by decide) (by decide) (by decide) (by decide) (by decide) (by decide)

/-- C8: on an id not present in the collection, each of the five id-taking store
    mutations (edit, delete, toggleComplete, toggleIsForToday, toggleIsRecurring)
    returns the collection unchanged; all are total functions, so no error can be
    raised. -/
theorem unknown_id_operations_are_noops
    (l : List Todo) (i s newId : List Char) (now : Int)
    (h : i ∉ l.map Todo.id) :
    editTodo l i s = l ∧ deleteTodo l i = l ∧ toggleComplete l i = l ∧
    toggleIsForToday l i newId now = l ∧ toggleIsRecurring l i = l := by
  have hne : ∀ t ∈ l, t.id ≠ i := by
    intro t ht he
    exact h (he ▸ List.mem_map_of_mem Todo.id ht)
  have hbe : ∀ t ∈ l, (t.id == i) = false := fun t ht => by
    simpa using hne t ht
  refine ⟨?_, ?_, ?_, ?_, ?_⟩
  · exact map_eq_self_of_fixed l _ (fun t ht => by simp [hbe t ht])
  · exact List.filter_eq_self.mpr (fun t ht => by simpa using hne t ht)
  · exact map_eq_self_of_fixed l _ (fun t ht => by simp [hbe t ht])
  · rw [toggleIsForToday, List.find?_eq_none.mpr (fun t ht => by simp [hbe t ht])]
  · exact map_eq_self_of_fixed l _ (fun t ht => by simp [hbe t ht])

theorem unknown_id_operations_are_noops_witness :
    editTodo [⟨jstr "a", jstr "x", false, 1, false, false, []⟩] (jstr "b") (jstr "y") =
      [⟨jstr "a", jstr "x", false, 1, false, false, []⟩] ∧
    deleteTodo [⟨jstr "a", jstr "x", false, 1, false, false, []⟩] (jstr "b") =
      [⟨jstr "a", jstr "x", false, 1, false, false, []⟩] ∧
    toggleComplete [⟨jstr "a", jstr "x", false, 1, false, false, []⟩] (jstr "b") =
      [⟨jstr "a", jstr "x", false, 1, false, false, []⟩] ∧
    toggleIsForToday [⟨jstr "a", jstr "x", false, 1, false, false, []⟩] (jstr "b")
        (jstr "c") 5 =
      [⟨jstr "a", jstr "x", false, 1, false, false, []⟩] ∧
    toggleIsRecurring [⟨jstr "a", jstr "x", false, 1, false, false, []⟩] (jstr "b") =
      [⟨jstr "a", jstr "x", false, 1, false, false, []⟩] :=
  unknown_id_operations_are_noops _ _ _ _ 5 (by decide)

/-- C10: in a collection with distinct ids, toggleComplete on the id of a task that
    is not a Template negates exactly that task's completed flag, leaves its other
    fields unchanged, and leaves every other task unchanged. -/
theorem toggleComplete_instance_flips_only_target
    (l₁ l₂ : List Todo) (t : Todo)
    (hnodup : ((l₁ ++ t :: l₂).map Todo.id).Nodup)
    (hnt : ¬(t.isRecurring = true ∧ t.isForToday = false)) :
    toggleComplete (l₁ ++ t :: l₂) t.id =
      l₁ ++ { t with completed := !t.completed } :: l₂ := by
  obtain ⟨h1, h2⟩ := nodup_middle_id l₁ l₂ t hnodup
  have hne1 : ∀ u ∈ l₁, (u.id == t.id) = false := by
    intro u hu
    simp only [beq_eq_false_iff_ne, ne_eq]
    intro he
    exact h1 (he ▸ List.mem_map_of_mem Todo.id hu)
  have hne2 : ∀ u ∈ l₂, (u.id == t.id) = false := by
    intro u hu
    simp only [beq_eq_false_iff_ne, ne_eq]
    intro he
    exact h2 (he ▸ List.mem_map_of_mem Todo.id hu)
  have hbranch : (t.isRecurring && !t.isForToday) = false := by
    cases hr : t.isRecurring <;> cases ht : t.isForToday <;> simp_all
  rw [toggleComplete, List.map_append, List.map_cons]
  rw [map_eq_self_of_fixed l₁ _ (fun u hu => by simp [hne1 u hu]),
      map_eq_self_of_fixed l₂ _ (fun u hu => by simp [hne2 u hu])]
  simp [hbranch]

theorem toggleComplete_instance_flips_only_target_witness :
    toggleComplete
        [⟨jstr "a", jstr "p", false, 1, true, false, []⟩,
         ⟨jstr "b", jstr "q", false, 2, true, false, []⟩,
         ⟨jstr "c", jstr "r", true, 3, false, false, []⟩]
        (jstr "b") =
      [⟨jstr "a", jstr "p", false, 1, true, false, []⟩,
       ⟨jstr "b", jstr "q", true, 2, true, false, []⟩,
       ⟨jstr "c", jstr "r", true, 3, false, false, []⟩] :=
  toggleComplete_instance_flips_only_target
    [⟨jstr "a", jstr "p", false, 1, true, false, []⟩]
    [⟨jstr "c", jstr "r", true, 3, false, false, []⟩]
    ⟨jstr "b", jstr "q", false, 2, true, false, []⟩
    (by decide) (by decide)

/- Helper lemmas about parseRow and parseRows. -/

theorem parseRow_isSome_eq_validRow (headers : List (List Char)) (force : Bool) (now : Int)
    (newId rawLine : List Char) :
    (parseRow headers force now newId rawLine).isSome = validRow headers rawLine := by
  by_cases h1 : trimChars rawLine = []
  · simp [parseRow, validRow, h1]
  · by_cases h2 :
        (getField headers (csvValues (trimChars rawLine)) (jstr "text")).getD [] = []
    · simp [parseRow, validRow, h1, h2, List.isEmpty_iff]
    · cases force <;>
        simp [parseRow, validRow, h1, h2, List.isEmpty_iff]

theorem parseRow_none_of_invalid (headers : List (List Char)) (force : Bool) (now : Int)
    (newId rawLine : List Char) (h : validRow headers rawLine = false) :
    parseRow headers force now newId rawLine = none := by
  cases hp : parseRow headers force now newId rawLine with
  | none => rfl
  | some t =>
    have := parseRow_isSome_eq_validRow headers force now newId rawLine
    rw [hp, h] at this
    cases this

theorem parseRow_force_fields (headers : List (List Char)) (now : Int)
    (newId rawLine : List Char) (t : Todo)
    (h : parseRow headers true now newId rawLine = some t) :
    t.completed = false ∧ t.isForToday = false ∧ t.isRecurring = true := by
  simp only [parseRow] at h
  split_ifs at h <;> cases h <;> exact ⟨rfl, rfl, rfl⟩

theorem parseRows_length_eq_validRows (headers : List (List Char)) (force : Bool)
    (now : Int) (idGen : Nat → List Char) (lines : List (List Char)) (k : Nat) :
    (parseRows headers force now idGen lines k).length =
      (lines.filter (validRow headers)).length := by
  induction lines generalizing k with
  | nil => rfl
  | cons line rest ih =>
    rw [parseRows]
    cases hp : parseRow headers force now (idGen k) line with
    | none =>
      have hv : validRow headers line = false := by
        have := parseRow_isSome_eq_validRow headers force now (idGen k) line
        rw [hp] at this
        exact this.symm
      simp [hv, ih k]
    | some t =>
      have hv : validRow headers line = true := by
        have := parseRow_isSome_eq_validRow headers force now (idGen k) line
        rw [hp] at this
        exact this.symm
      simp [hv, ih (k + 1)]

theorem parseRows_force_mem (headers : List (List Char)) (now : Int)
    (idGen : Nat → List Char) (lines : List (List Char)) (k : Nat) (t : Todo)
    (h : t ∈ parseRows headers true now idGen lines k) :
    t.completed = false ∧ t.isForToday = false ∧ t.isRecurring = true := by
  induction lines generalizing k with
  | nil => cases h
  | cons line rest ih =>
    rw [parseRows] at h
    cases hp : parseRow headers true now (idGen k) line with
    | none =>
      rw [hp] at h
      exact ih k h
    | some u =>
      rw [hp] at h
      rcases List.mem_cons.mp h with rfl | h
      · exact parseRow_force_fields headers now (idGen k) line t hp
      · exact ih (k + 1) h

/-- C9: an imported row whose tags field is a non-empty string all of whose
    semicolon-separated segments trim to the empty string yields a task with an empty
    tag list; the fallback extraction of tags from the text is not applied. -/
theorem blank_tags_column_yields_empty_tags
    (headers : List (List Char)) (force : Bool) (now : Int) (newId rawLine : List Char)
    (t : Todo) (tagsStr : List Char)
    (hparse : parseRow headers force now newId rawLine = some t)
    (htags : getField headers (csvValues (trimChars rawLine)) (jstr "tags") = some tagsStr)
    (hne : tagsStr ≠ [])
    (hblank : ∀ seg ∈ splitOnChar ';' tagsStr, trimChars seg = []) :
    t.tags = [] := by
  have hfilter :
      ((splitOnChar ';' tagsStr).map trimChars).filter (fun s => !s.isEmpty) = [] := by
    rw [List.filter_eq_nil_iff]
    intro a ha
    obtain ⟨seg, hseg, rfl⟩ := List.mem_map.mp ha
    simp [hblank seg hseg]
  simp only [parseRow, htags, Option.getD_some, if_neg hne, hfilter] at hparse
  split_ifs at hparse <;> cases hparse <;> rfl

theorem blank_tags_column_yields_empty_tags_witness :
    parseRow (headersOf (jstr "text,tags")) false 42 (jstr "u") (jstr "#foo,;;") =
      some ⟨jstr "u", jstr "#foo", false, 42, false, false, []⟩ ∧
    Todo.tags ⟨jstr "u", jstr "#foo", false, 42, false, false, []⟩ = [] ∧
    extractTags (jstr "#foo") ≠ [] :=
  ⟨by decide,
   blank_tags_column_yields_empty_tags (headersOf (jstr "text,tags")) false 42
     (jstr "u") (jstr "#foo,;;") ⟨jstr "u", jstr "#foo", false, 42, false, false, []⟩
     (jstr ";;") (by decide) (by decide) (by decide) (by decide),
   by decide⟩

/-- C6 (amended): an imported row's createdAt equals the base-10 parseInt value of
    its createdat field whenever that value exists and is non-zero, and is defaulted
    to the import time when the field is absent, has no parsable integer, or parses
    to zero (the JS falsy cases of parseInt(v) or-else now). -/
theorem importedRow_createdAt_amended
    (headers : List (List Char)) (force : Bool) (now : Int) (newId rawLine : List Char)
    (t : Todo) (v : List Char)
    (hparse : parseRow headers force now newId rawLine = some t)
    (hv : (getField headers (csvValues (trimChars rawLine)) (jstr "createdat")).getD []
            = v) :
    (∀ n : Int, jsParseInt v = some n → n ≠ 0 → t.createdAt = n) ∧
    ((jsParseInt v = none ∨ jsParseInt v = some 0) → t.createdAt = now) := by
  have hca : t.createdAt = jsOr (jsParseInt v) now := by
    simp only [parseRow, hv] at hparse
    split_ifs at hparse <;> cases hparse <;> rfl
  constructor
  · intro n hn hne
    rw [hca, hn, jsOr]
    simp [hne]
  · rintro (hn | hn) <;> rw [hca, hn] <;> simp [jsOr]

theorem importedRow_createdAt_amended_witness :
    (∀ n : Int, jsParseInt (jstr "300") = some n → n ≠ 0 →
      Todo.createdAt ⟨jstr "u", jstr "A", false, 300, false, false, []⟩ = n) ∧
    ((jsParseInt (jstr "300") = none ∨ jsParseInt (jstr "300") = some 0) →
      Todo.createdAt ⟨jstr "u", jstr "A", false, 300, false, false, []⟩ = 7) :=
  importedRow_createdAt_amended (headersOf (jstr "text,createdat")) false 7
    (jstr "u") (jstr "A,300") ⟨jstr "u", jstr "A", false, 300, false, false, []⟩
    (jstr "300") (by decide) (by decide)

/-- C6 counterexample: the row value 0 is a valid integer, yet the imported task's
    createdAt is the import time 999 instead of 0, because 0 is falsy in JS. -/
theorem importedRow_createdAt_cex :
    jsParseInt (jstr "0") = some 0 ∧
    parseCSVTextToTodos (jstr "text,createdat\nA,0") false (fun _ => []) 999 =
      Except.ok [⟨[], jstr "A", false, 999, false, false, []⟩] ∧
    (999 : Int) ≠ 0 :=
  ⟨by decide, by rfl, by decide⟩

/-- C5: recurring-merge import on any accepted CSV input appends the parsed tasks to
    the existing collection (removing none), the new size is the old size plus the
    number of valid rows, and every appended task is forced into the Template role
    (completed false, isForToday false, isRecurring true) regardless of row flags. -/
theorem importRecurring_appends_templates
    (old : List Todo) (text : List Char) (idGen : Nat → List Char) (now : Int)
    (ts : List Todo) (headerLine : List Char) (rest : List (List Char))
    (hok : parseCSVTextToTodos text true idGen now = Except.ok ts)
    (hsplit : splitLines text = headerLine :: rest) :
    handleImportRecurringCSV old text idGen now = old ++ ts ∧
    (handleImportRecurringCSV old text idGen now).length = old.length + ts.length ∧
    ts.length = (rest.filter (validRow (headersOf headerLine))).length ∧
    ∀ t ∈ ts, t.completed = false ∧ t.isForToday = false ∧ t.isRecurring = true := by
  have happ : handleImportRecurringCSV old text idGen now = old ++ ts := by
    rw [handleImportRecurringCSV, hok]
  simp only [parseCSVTextToTodos, hsplit] at hok
  by_cases hh : jstr "text" ∈ headersOf headerLine
  · rw [if_pos hh] at hok
    have hts : parseRows (headersOf headerLine) true now idGen rest 0 = ts :=
      Except.ok.inj hok
    refine ⟨happ, by simp [happ], ?_, ?_⟩
    · rw [← hts, parseRows_length_eq_validRows]
    · intro t ht
      exact parseRows_force_mem (headersOf headerLine) now idGen rest 0 t (hts ▸ ht)
  · rw [if_neg hh] at hok
    cases hok

theorem importRecurring_appends_templates_witness :
    handleImportRecurringCSV [⟨jstr "a", jstr "x", true, 1, true, false, []⟩]
        (jstr "text,completed,isfortoday\nA,true,true") (fun _ => jstr "u") 7 =
      [⟨jstr "a", jstr "x", true, 1, true, false, []⟩] ++
        [⟨jstr "u", jstr "A", false, 7, false, true, []⟩] ∧
    (handleImportRecurringCSV [⟨jstr "a", jstr "x", true, 1, true, false, []⟩]
        (jstr "text,completed,isfortoday\nA,true,true") (fun _ => jstr "u") 7).length =
      1 + 1 ∧
    ([⟨jstr "u", jstr "A", false, 7, false, true, []⟩] : List Todo).length =
      ((splitLines (jstr "text,completed,isfortoday\nA,true,true")).tail.filter
        (validRow (headersOf (jstr "text,completed,isfortoday")))).length ∧
    ∀ t ∈ ([⟨jstr "u", jstr "A", false, 7, false, true, []⟩] : List Todo),
      t.completed = false ∧ t.isForToday = false ∧ t.isRecurring = true :=
  importRecurring_appends_templates [⟨jstr "a", jstr "x", true, 1, true, false, []⟩]
    (jstr "text,completed,isfortoday\nA,true,true") (fun _ => jstr "u") 7
    [⟨jstr "u", jstr "A", false, 7, false, true, []⟩]
    (jstr "text,completed,isfortoday") [jstr "A,true,true"] (by rfl) (by rfl)

/-- C7: a CSV input whose header lacks a text column (matched case-insensitively)
    makes the import fail with the malformed-input error and leaves the collection
    unchanged; with a text column present the parse succeeds, and any data row
    without a non-empty text value is skipped while all remaining rows are still
    processed. -/
theorem import_header_error_and_row_skip :
    (∀ (old : List Todo) (text : List Char) (idGen : Nat → List Char) (now : Int)
        (headerLine : List Char) (rest : List (List Char)),
      splitLines text = headerLine :: rest →
      jstr "text" ∉ headersOf headerLine →
      (∃ msg, parseCSVTextToTodos text false idGen now = Except.error msg) ∧
      handleImportCSV old text idGen now = old) ∧
    (∀ (text : List Char) (idGen : Nat → List Char) (now : Int)
        (headerLine : List Char) (rest : List (List Char)),
      splitLines text = headerLine :: rest →
      jstr "text" ∈ headersOf headerLine →
      parseCSVTextToTodos text false idGen now =
        Except.ok (parseRows (headersOf headerLine) false now idGen rest 0)) ∧
    (∀ (headers : List (List Char)) (force : Bool) (now : Int)
        (idGen : Nat → List Char) (l₁ l₂ : List (List Char)) (bad : List Char) (k : Nat),
      validRow headers bad = false →
      parseRows headers force now idGen (l₁ ++ bad :: l₂) k =
        parseRows headers force now idGen (l₁ ++ l₂) k) := by
  refine ⟨?_, ?_, ?_⟩
  · intro old text idGen now headerLine rest hsplit hnotin
    constructor
    · refine ⟨jstr "CSV file is missing required headers: text.", ?_⟩
      simp only [parseCSVTextToTodos, hsplit]
      rw [if_neg hnotin]
    · rw [handleImportCSV]
      simp only [parseCSVTextToTodos, hsplit]
      rw [if_neg hnotin]
  · intro text idGen now headerLine rest hsplit hin
    simp only [parseCSVTextToTodos, hsplit]
    rw [if_pos hin]
  · intro headers force now idGen l₁ l₂ bad k hbad
    induction l₁ generalizing k with
    | nil =>
      rw [List.nil_append, List.nil_append, parseRows,
        parseRow_none_of_invalid headers force now (idGen k) bad hbad]
    | cons line l₁ ih =>
      rw [List.cons_append, List.cons_append, parseRows, parseRows]
      cases hp : parseRow headers force now (idGen k) line with
      | none => exact ih k
      | some t => rw [ih (k + 1)]

theorem import_header_error_and_row_skip_witness :
    ((∃ msg, parseCSVTextToTodos (jstr "id,completed\nA,true") false (fun _ => []) 7 =
        Except.error msg) ∧
      handleImportCSV [⟨jstr "a", jstr "x", false, 1, false, false, []⟩]
        (jstr "id,completed\nA,true") (fun _ => []) 7 =
        [⟨jstr "a", jstr "x", false, 1, false, false, []⟩]) ∧
    parseRows (headersOf (jstr "text,completed")) false 7 (fun _ => [])
        [jstr ",true", jstr "B,false"] 0 =
      parseRows (headersOf (jstr "text,completed")) false 7 (fun _ => [])
        [jstr "B,false"] 0 :=
  ⟨import_header_error_and_row_skip.1 [⟨jstr "a", jstr "x", false, 1, false, false, []⟩]
      (jstr "id,completed\nA,true") (fun _ => []) 7 (jstr "id,completed")
      [jstr "A,true"] (by rfl) (by decide),
   import_header_error_and_row_skip.2.2 (headersOf (jstr "text,completed")) false 7
      (fun _ => []) [] [jstr "B,false"] (jstr ",true") 0 (by decide)⟩

/-- C3 (amended): on a collection with distinct ids in which no task has both
    isRecurring and isForToday set, every operation other than the replace-all
    CSV importer — add, edit, delete, toggleComplete, toggleIsForToday,
    toggleIsRecurring, recurring-merge CSV import — again yields a collection with
    no such task. Replace-all import does not preserve this: see the
    counterexample. -/
theorem mutations_preserve_role_invariant
    (l : List Todo) (hn : NoBoth l) (hnodup : (l.map Todo.id).Nodup) :
    (∀ text newId now, NoBoth (addTodo l text newId now)) ∧
    (∀ i s, NoBoth (editTodo l i s)) ∧
    (∀ i, NoBoth (deleteTodo l i)) ∧
    (∀ i, NoBoth (toggleComplete l i)) ∧
    (∀ i newId now, NoBoth (toggleIsForToday l i newId now)) ∧
    (∀ i, NoBoth (toggleIsRecurring l i)) ∧
    (∀ text idGen now, NoBoth (handleImportRecurringCSV l text idGen now)) := by
  refine ⟨?_, ?_, ?_, ?_, ?_, ?_, ?_⟩
  · intro text newId now t ht
    rcases List.mem_cons.mp ht with rfl | ht
    · simp
    · exact hn t ht
  · intro i s t ht
    obtain ⟨u, hu, rfl⟩ := List.mem_map.mp ht
    by_cases hid : (u.id == i) = true <;> simp only [editTodo, hid, if_true, if_false] <;>
      simpa using hn u hu
  · intro i t ht
    exact hn t (List.mem_of_mem_filter ht)
  · intro i t ht
    obtain ⟨u, hu, rfl⟩ := List.mem_map.mp ht
    by_cases hid : (u.id == i) = true
    · have hnu := hn u hu
      by_cases hb : (u.isRecurring && !u.isForToday) = true <;>
        simp only [toggleComplete, hid, hb, if_true, if_false] <;>
        simp_all
    · simp only [toggleComplete, hid, if_false]
      exact hn u hu
  · intro i newId now t ht
    rw [toggleIsForToday] at ht
    cases hf : l.find? (fun todo => todo.id == i) with
    | none =>
      rw [hf] at ht
      exact hn t ht
    | some tt =>
      simp only [hf] at ht
      have htt_mem : tt ∈ l := List.mem_of_find?_eq_some hf
      have hps := List.find?_some hf
      have htt_id : tt.id = i := beq_iff_eq.mp hps
      by_cases hb : (tt.isRecurring && !tt.isForToday) = true
      · rw [if_pos hb] at ht
        rcases List.mem_append.mp ht with ht | ht
        · exact hn t ht
        · rcases List.mem_cons.mp ht with rfl | ht
          · simp
          · cases ht
      · rw [if_neg hb] at ht
        obtain ⟨u, hu, rfl⟩ := List.mem_map.mp ht
        by_cases hid : (u.id == i) = true
        · have hu_eq : u = tt :=
            List.inj_on_of_nodup_map hnodup hu htt_mem
              (by rw [beq_iff_eq] at hid; rw [hid, htt_id])
          subst hu_eq
          simp only [hid, if_true]
          rintro ⟨h1, h2⟩
          rw [Bool.not_eq_true'] at h2
          exact hb (by rw [h1, h2]; rfl)
        · simp only [hid, if_false]
          exact hn u hu
  · intro i t ht
    obtain ⟨u, hu, rfl⟩ := List.mem_map.mp ht
    by_cases hid : (u.id == i) = true
    · simp only [toggleIsRecurring, hid, if_true]
      cases hr : u.isRecurring <;> simp
    · simp only [toggleIsRecurring, hid, if_false]
      exact hn u hu
  · intro text idGen now t ht
    rw [handleImportRecurringCSV] at ht
    cases hp : parseCSVTextToTodos text true idGen now with
    | error e =>
      rw [hp] at ht
      exact hn t ht
    | ok ts =>
      rw [hp] at ht
      have ht' : t ∈ l ++ ts := ht
      rcases List.mem_append.mp ht' with htl | htr
      · exact hn t htl
      · cases hsplit : splitLines text with
        | nil =>
          simp only [parseCSVTextToTodos, hsplit] at hp
          exact absurd hp (by simp)
        | cons headerLine rest =>
          simp only [parseCSVTextToTodos, hsplit] at hp
          by_cases hh : jstr "text" ∈ headersOf headerLine
          · rw [if_pos hh] at hp
            have hts := Except.ok.inj hp
            have hflags := parseRows_force_mem (headersOf headerLine) now idGen rest 0 t
              (hts ▸ htr)
            rintro ⟨-, h2⟩
            rw [hflags.2.1] at h2
            cases h2
          · rw [if_neg hh] at hp
            cases hp

theorem mutations_preserve_role_invariant_witness :
    NoBoth (addTodo [⟨jstr "a", jstr "x", false, 1, false, true, []⟩] (jstr "y")
      (jstr "b") 5) :=
  (mutations_preserve_role_invariant [⟨jstr "a", jstr "x", false, 1, false, true, []⟩]
    (by intro t ht; rcases List.mem_cons.mp ht with rfl | ht
        · simp
        · cases ht)
    (by decide)).1 (jstr "y") (jstr "b") 5

/-- C3 counterexample: replace-all CSV import does not preserve the role invariant.
    Importing a row with both isfortoday and isrecurring set to true into the empty
    collection (which trivially satisfies the invariant) yields a task with both
    flags set. -/
theorem replaceAll_import_violates_role_invariant :
    NoBoth [] ∧
    handleImportCSV [] (jstr "text,isfortoday,isrecurring\nA,true,true")
        (fun _ => []) 7 =
      [⟨[], jstr "A", false, 7, true, true, []⟩] ∧
    ¬ NoBoth (handleImportCSV [] (jstr "text,isfortoday,isrecurring\nA,true,true")
        (fun _ => []) 7) := by
  refine ⟨fun t ht => absurd ht (List.not_mem_nil t), by rfl, fun h => ?_⟩
  exact h ⟨[], jstr "A", false, 7, true, true, []⟩ (by decide) ⟨rfl, rfl⟩

/- Helper lemmas about the completed-task grouping. -/

theorem addToGroup_of_no_key (gs : List GroupedCompletedTodo) (t : Todo)
    (h : ∀ g ∈ gs, g.representativeTodo.text ≠ t.text) :
    addToGroup gs t = gs ++ [⟨t, [t.id], 1, t.createdAt⟩] := by
  induction gs with
  | nil => rfl
  | cons g rest ih =>
    rw [addToGroup, if_neg (by simpa using h g (by simp)),
      ih (fun g' hg' => h g' (by simp [hg']))]
    rfl

theorem addToGroup_first_key (gs₁ : List GroupedCompletedTodo)
    (g₀ : GroupedCompletedTodo) (gs₂ : List GroupedCompletedTodo) (t : Todo)
    (h1 : ∀ g ∈ gs₁, g.representativeTodo.text ≠ t.text)
    (h0 : g₀.representativeTodo.text = t.text) :
    addToGroup (gs₁ ++ g₀ :: gs₂) t =
      gs₁ ++ { g₀ with instanceIds := g₀.instanceIds ++ [t.id],
                       completionCount := g₀.instanceIds.length + 1 } :: gs₂ := by
  induction gs₁ with
  | nil =>
    rw [List.nil_append, addToGroup, if_pos (by simp [h0])]
    rfl
  | cons g rest ih =>
    rw [List.cons_append, addToGroup, if_neg (by simpa using h1 g (by simp)),
      ih (fun g' hg' => h1 g' (by simp [hg']))]
    rfl

theorem GroupsSpec_addToGroup (done : List Todo) (gs : List GroupedCompletedTodo)
    (t : Todo) (h : GroupsSpec done gs) : GroupsSpec (done ++ [t]) (addToGroup gs t) := by
  obtain ⟨hdesc, hcompl, hkeys⟩ := h
  by_cases hex : ∃ g₀ ∈ gs, g₀.representativeTodo.text = t.text
  · obtain ⟨g₀, hg₀, hkey⟩ := hex
    obtain ⟨gs₁, gs₂, rfl⟩ := List.append_of_mem hg₀
    rw [List.map_append, List.map_cons, List.nodup_append] at hkeys
    obtain ⟨hn1, hn2, hdisj⟩ := hkeys
    rw [List.nodup_cons] at hn2
    have hk1 : ∀ g ∈ gs₁, g.representativeTodo.text ≠ t.text := by
      intro g hg he
      exact hdisj (List.mem_map_of_mem _ hg) (by simp [he, hkey])
    have hk2 : ∀ g ∈ gs₂, g.representativeTodo.text ≠ t.text := by
      intro g hg he
      exact hn2.1 (by rw [hkey, ← he]; exact List.mem_map_of_mem _ hg)
    rw [addToGroup_first_key gs₁ g₀ gs₂ t hk1 hkey]
    have hg₀spec := hdesc g₀ (by simp)
    refine ⟨?_, ?_, ?_⟩
    · intro g hg
      rcases List.mem_append.mp hg with hg | hg
      · have hk := hk1 g hg
        have hspec := hdesc g (List.mem_append_left _ hg)
        have hpt : (t.text == g.representativeTodo.text) = false := by
          simpa using fun he => hk he.symm
        refine ⟨?_, ?_, ?_, hspec.2.2.2⟩
        · rw [List.find?_append, hspec.1]; rfl
        · rw [List.filter_append, hspec.2.1]
          simp [hpt]
        · rw [List.filter_append]
          simp [hpt, hspec.2.2.1]
      · rcases List.mem_cons.mp hg with rfl | hg
        · have hpt : (t.text == g₀.representativeTodo.text) = true := by
            simp [hkey]
          refine ⟨?_, ?_, ?_, hg₀spec.2.2.2⟩
          · rw [List.find?_append, hg₀spec.1]; rfl
          · rw [List.filter_append, hg₀spec.2.1]
            simp [hpt]
          · rw [List.filter_append]
            have hlen : g₀.instanceIds.length =
                (done.filter fun u => u.text == g₀.representativeTodo.text).length := by
              rw [hg₀spec.2.1, List.length_map]
            simp [hpt, hlen]
        · have hk := hk2 g hg
          have hspec := hdesc g (by simp [hg])
          have hpt : (t.text == g.representativeTodo.text) = false := by
            simpa using fun he => hk he.symm
          refine ⟨?_, ?_, ?_, hspec.2.2.2⟩
          · rw [List.find?_append, hspec.1]; rfl
          · rw [List.filter_append, hspec.2.1]
            simp [hpt]
          · rw [List.filter_append]
            simp [hpt, hspec.2.2.1]
    · intro u hu
      rcases List.mem_append.mp hu with hu | hu
      · obtain ⟨g, hg, hgu⟩ := hcompl u hu
        rcases List.mem_append.mp hg with hg | hg
        · exact ⟨g, List.mem_append_left _ hg, hgu⟩
        · rcases List.mem_cons.mp hg with hgeq | hg
          · refine ⟨{ g₀ with instanceIds := g₀.instanceIds ++ [t.id], completionCount := g₀.instanceIds.length + 1 }, by simp, ?_⟩
            rw [hgeq] at hgu
            exact hgu
          · exact ⟨g, by simp [hg], hgu⟩
      · rcases List.mem_cons.mp hu with hueq | hu
        · refine ⟨{ g₀ with instanceIds := g₀.instanceIds ++ [t.id], completionCount := g₀.instanceIds.length + 1 }, by simp, ?_⟩
          rw [hueq]
          exact hkey
        · cases hu
    · rw [List.map_append, List.map_cons, List.nodup_append]
      refine ⟨hn1, List.nodup_cons.mpr hn2, ?_⟩
      intro a ha hb
      exact hdisj ha hb
  · push_neg at hex
    rw [addToGroup_of_no_key gs t hex]
    have hdone : ∀ u ∈ done, u.text ≠ t.text := by
      intro u hu he
      obtain ⟨g, hg, hgu⟩ := hcompl u hu
      exact hex g hg (hgu.trans he)
    refine ⟨?_, ?_, ?_⟩
    · intro g hg
      rcases List.mem_append.mp hg with hg | hg
      · have hk := hex g hg
        have hspec := hdesc g hg
        have hpt : (t.text == g.representativeTodo.text) = false := by
          simpa using fun he => hk he.symm
        refine ⟨?_, ?_, ?_, hspec.2.2.2⟩
        · rw [List.find?_append, hspec.1]; rfl
        · rw [List.filter_append, hspec.2.1]
          simp [hpt]
        · rw [List.filter_append]
          simp [hpt, hspec.2.2.1]
      · rcases List.mem_cons.mp hg with rfl | hg
        · have hnone : done.find? (fun u => u.text == t.text) = none := by
            rw [List.find?_eq_none]
            intro u hu
            simpa using hdone u hu
          have hnil : done.filter (fun u => u.text == t.text) = [] := by
            rw [List.filter_eq_nil_iff]
            intro u hu
            simpa using hdone u hu
          refine ⟨?_, ?_, ?_, rfl⟩
          · simp only [List.find?_append, hnone, Option.none_or]
            simp [List.find?_cons]
          · simp only [List.filter_append, hnil, List.nil_append]
            simp
          · simp only [List.filter_append, hnil, List.nil_append]
            simp
        · cases hg
    · intro u hu
      rcases List.mem_append.mp hu with hu | hu
      · obtain ⟨g, hg, hgu⟩ := hcompl u hu
        exact ⟨g, List.mem_append_left _ hg, hgu⟩
      · rcases List.mem_cons.mp hu with hueq | hu
        · exact ⟨⟨t, [t.id], 1, t.createdAt⟩, by simp, by rw [hueq]⟩
        · cases hu
    · rw [List.map_append, List.nodup_append]
      refine ⟨hkeys, by simp, ?_⟩
      intro a ha hb
      obtain ⟨g, hg, rfl⟩ := List.mem_map.mp ha
      simp only [List.map_cons, List.map_nil, List.mem_singleton] at hb
      exact hex g hg hb

theorem GroupsSpec_foldl (todos : List Todo) :
    ∀ (done : List Todo) (gs : List GroupedCompletedTodo), GroupsSpec done gs →
      GroupsSpec (done ++ todos) (todos.foldl addToGroup gs) := by
  induction todos with
  | nil =>
    intro done gs h
    simpa using h
  | cons t rest ih =>
    intro done gs h
    have hstep := ih (done ++ [t]) (addToGroup gs t) (GroupsSpec_addToGroup done gs t h)
    simpa using hstep

theorem GroupsSpec_nil : GroupsSpec [] [] :=
  ⟨by simp, by simp, by simp⟩

theorem mem_insertGroupSorted (x g : GroupedCompletedTodo)
    (gs : List GroupedCompletedTodo) :
    g ∈ insertGroupSorted x gs ↔ g = x ∨ g ∈ gs := by
  induction gs with
  | nil => simp [insertGroupSorted]
  | cons y rest ih =>
    rw [insertGroupSorted]
    by_cases hb : groupBefore x y = true
    · rw [if_pos hb]
      simp
    · rw [if_neg hb]
      rw [List.mem_cons, List.mem_cons, ih]
      tauto

theorem sorted_insertGroupSorted (x : GroupedCompletedTodo)
    (gs : List GroupedCompletedTodo) (h : gs.Sorted groupGE) :
    (insertGroupSorted x gs).Sorted groupGE := by
  induction gs with
  | nil => simp [insertGroupSorted, List.sorted_singleton]
  | cons y rest ih =>
    rw [List.sorted_cons] at h
    rw [insertGroupSorted]
    by_cases hb : groupBefore x y
    · rw [if_pos hb, List.sorted_cons]
      have hxy : groupGE x y := by
        simpa [groupBefore, groupGE] using hb
      refine ⟨?_, List.sorted_cons.mpr h⟩
      intro b hbm
      rcases List.mem_cons.mp hbm with rfl | hbm
      · exact hxy
      · exact le_trans (h.1 b hbm) hxy
    · rw [if_neg hb, List.sorted_cons]
      refine ⟨?_, ih h.2⟩
      intro b hbm
      rcases (mem_insertGroupSorted x b rest).mp hbm with rfl | hbm
      · have hlt : b.firstCompletedAt < y.firstCompletedAt := by
          simpa [groupBefore] using hb
        exact le_of_lt hlt
      · exact h.1 b hbm

theorem sorted_groupFold (gs : List GroupedCompletedTodo) :
    (gs.foldr insertGroupSorted []).Sorted groupGE := by
  induction gs with
  | nil => exact List.sorted_nil
  | cons g rest ih => exact sorted_insertGroupSorted g _ ih

theorem mem_groupFold (g : GroupedCompletedTodo) (gs : List GroupedCompletedTodo) :
    g ∈ gs.foldr insertGroupSorted [] ↔ g ∈ gs := by
  induction gs with
  | nil => simp
  | cons y rest ih =>
    rw [List.foldr_cons, mem_insertGroupSorted, ih, List.mem_cons]

/-- C4: in the today-list grouping, every produced group has as representative the
    first completed task bearing its text, as member ids the ids of all completed
    tasks with that text in list order, as count their number, and as timestamp the
    representative's createdAt; groups are ordered by that timestamp descending. On
    the concrete today-instances of the claim (Coffee break at 300 and 100, Write
    report at 200, all completed), the full pipeline yields the Coffee break group
    with count 2 and representative createdAt 300 ordered before the Write report
    group with count 1. -/
theorem todayCompletedGroups_spec :
    (∀ (todos : List Todo) (g : GroupedCompletedTodo),
      g ∈ groupedCompletedTodos todos →
      (todos.filter (·.completed)).find? (fun u => u.text == g.representativeTodo.text)
          = some g.representativeTodo ∧
      g.instanceIds = ((todos.filter (·.completed)).filter
          (fun u => u.text == g.representativeTodo.text)).map Todo.id ∧
      g.completionCount = ((todos.filter (·.completed)).filter
          (fun u => u.text == g.representativeTodo.text)).length ∧
      g.firstCompletedAt = g.representativeTodo.createdAt) ∧
    (∀ todos : List Todo, (groupedCompletedTodos todos).Sorted groupGE) ∧
    todayCompletedGroups
        [⟨jstr "c1", jstr "Coffee break", true, 300, true, false, []⟩,
         ⟨jstr "c2", jstr "Coffee break", true, 100, true, false, []⟩,
         ⟨jstr "w", jstr "Write report", true, 200, true, false, []⟩] =
      [⟨⟨jstr "c1", jstr "Coffee break", true, 300, true, false, []⟩,
          [jstr "c1", jstr "c2"], 2, 300⟩,
       ⟨⟨jstr "w", jstr "Write report", true, 200, true, false, []⟩,
          [jstr "w"], 1, 200⟩] := by
  refine ⟨?_, ?_, by decide⟩
  · intro todos g hg
    have hspec := GroupsSpec_foldl (todos.filter (·.completed)) [] [] GroupsSpec_nil
    rw [List.nil_append] at hspec
    have hmem : g ∈ (todos.filter (·.completed)).foldl addToGroup [] :=
      (mem_groupFold g _).mp hg
    exact hspec.1 g hmem
  · intro todos
    exact sorted_groupFold _

theorem todayCompletedGroups_spec_witness :
    List.find?
        (fun u => u.text == Todo.text ⟨jstr "a", jstr "T", true, 5, true, false, []⟩)
        (([⟨jstr "a", jstr "T", true, 5, true, false, []⟩] : List Todo).filter
          (·.completed))
      = some ⟨jstr "a", jstr "T", true, 5, true, false, []⟩ :=
  (todayCompletedGroups_spec.1 [⟨jstr "a", jstr "T", true, 5, true, false, []⟩]
    ⟨⟨jstr "a", jstr "T", true, 5, true, false, []⟩, [jstr "a"], 1, 5⟩
    (by decide)).1

/- Character-class and trimming lemmas used by the round-trip proof. -/

theorem mem_natToDigitsAux (fuel : Nat) :
    ∀ (n : Nat) (c : Char), c ∈ natToDigitsAux fuel n → c ∈ jstr "0123456789" := by
  induction fuel with
  | zero =>
    intro n c hc
    cases hc
  | succ fuel ih =>
    intro n c hc
    rw [natToDigitsAux] at hc
    split_ifs at hc with h
    · rw [List.mem_singleton] at hc
      subst hc
      interval_cases n <;> decide
    · rcases List.mem_append.mp hc with hc | hc
      · exact ih _ c hc
      · rw [List.mem_singleton] at hc
        subst hc
        have hm : n % 10 < 10 := Nat.mod_lt _ (by omega)
        set m := n % 10 with hmdef
        interval_cases m <;> decide

theorem digit_char_props (c : Char) (h : c ∈ jstr "0123456789") :
    isWS c = false ∧ c ≠ ',' ∧ c ≠ '"' ∧ c ≠ '\n' ∧ c ≠ ';' := by
  fin_cases h <;> decide

theorem mem_intStr (n : Int) (c : Char) (h : c ∈ intStr n) :
    c = '-' ∨ c ∈ jstr "0123456789" := by
  rw [intStr] at h
  split_ifs at h
  · rcases List.mem_cons.mp h with rfl | h
    · exact Or.inl rfl
    · exact Or.inr (mem_natToDigitsAux _ _ c h)
  · exact Or.inr (mem_natToDigitsAux _ _ c h)

theorem intStr_char_props (n : Int) (c : Char) (h : c ∈ intStr n) :
    isWS c = false ∧ c ≠ ',' ∧ c ≠ '"' ∧ c ≠ '\n' ∧ c ≠ ';' := by
  rcases mem_intStr n c h with rfl | h
  · exact ⟨by decide, by decide, by decide, by decide, by decide⟩
  · exact digit_char_props c h

theorem mem_boolStr (b : Bool) (c : Char) (h : c ∈ boolStr b) :
    isWS c = false ∧ c ≠ ',' ∧ c ≠ '"' ∧ c ≠ '\n' := by
  cases b <;> fin_cases h <;> decide

theorem dropWhile_eq_self_of_head (p : Char → Bool) (l : List Char) (b : Char)
    (hm : l.head? = some b) (hb : p b = false) : l.dropWhile p = l := by
  cases l with
  | nil => cases hm
  | cons a rest =>
    rw [List.head?_cons, Option.some.injEq] at hm
    subst hm
    rw [List.dropWhile_cons, hb]
    simp

theorem trimChars_noop_of_ends (l : List Char)
    (hh : ∀ a, l.head? = some a → isWS a = false)
    (hl : ∀ a, l.getLast? = some a → isWS a = false) : trimChars l = l := by
  cases l with
  | nil => rfl
  | cons a rest =>
    rw [trimChars, dropWhile_eq_self_of_head isWS (a :: rest) a rfl (hh a rfl)]
    cases hlast : (a :: rest).getLast? with
    | none => cases (List.getLast?_eq_none_iff.mp hlast)
    | some b =>
      rw [dropWhile_eq_self_of_head isWS (a :: rest).reverse b
        (by rw [List.head?_reverse]; exact hlast) (hl b hlast)]
      exact List.reverse_reverse _

theorem trimChars_of_all_not_ws (l : List Char) (h : ∀ c ∈ l, isWS c = false) :
    trimChars l = l :=
  trimChars_noop_of_ends l
    (fun a ha => h a (List.mem_of_mem_head? (by rw [ha]; exact rfl)))
    (fun a ha => h a (by
      have : a ∈ l.reverse := List.mem_of_mem_head? (by
        rw [List.head?_reverse, ha]; exact rfl)
      exact List.mem_reverse.mp this))

theorem trimChars_length_le (l : List Char) : (trimChars l).length ≤ l.length := by
  rw [trimChars]
  calc ((l.dropWhile isWS).reverse.dropWhile isWS).reverse.length
      = ((l.dropWhile isWS).reverse.dropWhile isWS).length := List.length_reverse _
    _ ≤ (l.dropWhile isWS).reverse.length :=
        (List.dropWhile_sublist isWS).length_le
    _ = (l.dropWhile isWS).length := List.length_reverse _
    _ ≤ l.length := (List.dropWhile_sublist isWS).length_le

theorem head_not_ws_of_trim_eq (l : List Char) (h : trimChars l = l) :
    ∀ a, l.head? = some a → isWS a = false := by
  intro a ha
  by_contra hws
  rw [Bool.not_eq_false] at hws
  cases l with
  | nil => cases ha
  | cons b rest =>
    rw [List.head?_cons, Option.some.injEq] at ha
    subst ha
    have hdrop : (b :: rest).dropWhile isWS = rest.dropWhile isWS := by
      rw [List.dropWhile_cons, hws]
      simp
    have hlen : (trimChars (b :: rest)).length ≤ rest.length := by
      rw [trimChars, hdrop]
      calc ((rest.dropWhile isWS).reverse.dropWhile isWS).reverse.length
          = ((rest.dropWhile isWS).reverse.dropWhile isWS).length := List.length_reverse _
        _ ≤ (rest.dropWhile isWS).reverse.length :=
            (List.dropWhile_sublist isWS).length_le
        _ = (rest.dropWhile isWS).length := List.length_reverse _
        _ ≤ rest.length := (List.dropWhile_sublist isWS).length_le
    rw [h] at hlen
    simp at hlen

theorem getLast_not_ws_of_trim_eq (l : List Char) (h : trimChars l = l) :
    ∀ a, l.getLast? = some a → isWS a = false := by
  intro a ha
  by_contra hws
  rw [Bool.not_eq_false] at hws
  have hlne : l ≠ [] := by
    intro he
    rw [he] at ha
    cases ha
  set d := l.dropWhile isWS with hd
  by_cases hdn : d = []
  · have : trimChars l = [] := by
      rw [trimChars, ← hd, hdn]
      rfl
    rw [h] at this
    exact hlne this
  · obtain ⟨pre, hpre⟩ : ∃ pre, pre ++ d = l := List.dropWhile_suffix isWS
    have hlast_d : d.getLast? = some a := by
      rw [← hpre] at ha
      rw [List.getLast?_append] at ha
      cases hgd : d.getLast? with
      | none => exact absurd (List.getLast?_eq_none_iff.mp hgd) hdn
      | some b =>
        rw [hgd] at ha
        simpa using ha
    have hrev : d.reverse.head? = some a := by
      rw [List.head?_reverse]
      exact hlast_d
    have hdroplen : (d.reverse.dropWhile isWS).length < d.length := by
      cases hdr : d.reverse with
      | nil =>
        exact absurd (by simpa using hdr) hdn
      | cons x xs =>
        rw [hdr] at hrev
        rw [List.head?_cons, Option.some.injEq] at hrev
        subst hrev
        rw [List.dropWhile_cons, hws]
        simp only [if_true]
        have h1 : (xs.dropWhile isWS).length ≤ xs.length :=
          (List.dropWhile_sublist isWS).length_le
        have h2 : d.length = xs.length + 1 := by
          have := congrArg List.length hdr
          simpa using this
        omega
    have htrimlen : (trimChars l).length < l.length := by
      rw [trimChars, ← hd]
      have h1 : ((d.reverse.dropWhile isWS).reverse).length < d.length := by
        rw [List.length_reverse]
        exact hdroplen
      have h2 : d.length ≤ l.length := by
        rw [← hpre]
        simp
      omega
    rw [h] at htrimlen
    omega

/- Head and last facts for joined pieces. -/

theorem intercalateChar_cons_cons (sep : Char) (p q : List Char)
    (rest : List (List Char)) :
    intercalateChar sep (p :: q :: rest) = p ++ sep :: intercalateChar sep (q :: rest) :=
  rfl

theorem mem_intercalateChar (sep : Char) :
    ∀ (ps : List (List Char)) (c : Char), c ∈ intercalateChar sep ps →
      (∃ p ∈ ps, c ∈ p) ∨ c = sep := by
  intro ps
  induction ps with
  | nil =>
    intro c hc
    cases hc
  | cons p rest ih =>
    intro c hc
    cases rest with
    | nil =>
      exact Or.inl ⟨p, by simp, hc⟩
    | cons q rest2 =>
      rw [intercalateChar_cons_cons] at hc
      rcases List.mem_append.mp hc with hc | hc
      · exact Or.inl ⟨p, by simp, hc⟩
      · rcases List.mem_cons.mp hc with rfl | hc
        · exact Or.inr rfl
        · rcases ih c hc with ⟨p', hp', hcp'⟩ | hc
          · exact Or.inl ⟨p', by simp [hp'], hcp'⟩
          · exact Or.inr hc

theorem head?_not_ws_intercalate (sep : Char) (hsep : isWS sep = false)
    (ps : List (List Char))
    (hf : ∀ p ∈ ps, ∀ a, p.head? = some a → isWS a = false) :
    ∀ a, (intercalateChar sep ps).head? = some a → isWS a = false := by
  intro a ha
  cases ps with
  | nil => cases ha
  | cons p rest =>
    cases rest with
    | nil => exact hf p (by simp) a ha
    | cons q rest2 =>
      rw [intercalateChar_cons_cons, List.head?_append] at ha
      cases hp : p.head? with
      | none =>
        rw [hp, Option.none_or, List.head?_cons, Option.some.injEq] at ha
        subst ha
        exact hsep
      | some b =>
        rw [hp] at ha
        simp only [Option.or_some, Option.some.injEq] at ha
        subst ha
        exact hf p (by simp) b hp

theorem getLast?_cons_eq (c : Char) (l : List Char) :
    (c :: l).getLast? = if l = [] then some c else l.getLast? := by
  cases l with
  | nil => rfl
  | cons d rest =>
    rw [List.getLast?_cons_cons]
    simp

theorem getLast?_not_ws_intercalate (sep : Char) (hsep : isWS sep = false) :
    ∀ (ps : List (List Char)),
      (∀ p ∈ ps, ∀ a, p.getLast? = some a → isWS a = false) →
      ∀ a, (intercalateChar sep ps).getLast? = some a → isWS a = false := by
  intro ps
  induction ps with
  | nil =>
    intro _ a ha
    cases ha
  | cons p rest ih =>
    intro hf a ha
    cases rest with
    | nil => exact hf p (by simp) a ha
    | cons q rest2 =>
      rw [intercalateChar_cons_cons, List.getLast?_append] at ha
      rw [getLast?_cons_eq] at ha
      by_cases hI : intercalateChar sep (q :: rest2) = []
      · rw [if_pos hI] at ha
        simp only [Option.or_some, Option.some.injEq] at ha
        subst ha
        exact hsep
      · rw [if_neg hI] at ha
        cases hg : (intercalateChar sep (q :: rest2)).getLast? with
        | none => exact absurd (List.getLast?_eq_none_iff.mp hg) hI
        | some b =>
          rw [hg] at ha
          simp only [Option.or_some, Option.some.injEq] at ha
          subst ha
          exact ih (fun p' hp' => hf p' (by simp [hp'])) b hg

/- Escaping, row splitting and value cleaning: the field-level round trip. -/

theorem splitCSVRowAux_cons (c : Char) (cs acc : List Char) :
    splitCSVRowAux (c :: cs) acc =
      if c = ',' ∧ cs.count '"' % 2 = 0 then acc.reverse :: splitCSVRowAux cs []
      else splitCSVRowAux cs (c :: acc) := rfl

theorem count_escQ_even (s : List Char) : (escapeQuotesJS s).count '"' % 2 = 0 := by
  induction s with
  | nil => rfl
  | cons c rest ih =>
    rw [escapeQuotesJS]
    by_cases hc : c = '"'
    · subst hc
      rw [if_pos rfl, List.count_append]
      have h2 : (['"', '"'] : List Char).count '"' = 2 := by decide
      omega
    · rw [if_neg hc, List.count_append]
      have h0 : ([c] : List Char).count '"' = 0 := by
        rw [List.count_eq_zero, List.mem_singleton]
        exact fun he => hc he.symm
      omega

theorem mem_escapeQuotesJS (s : List Char) (c : Char) (h : c ∈ escapeQuotesJS s) :
    c ∈ s ∨ c = '"' := by
  induction s with
  | nil => cases h
  | cons d rest ih =>
    rw [escapeQuotesJS] at h
    rcases List.mem_append.mp h with h | h
    · split_ifs at h with hd
      · rcases List.mem_cons.mp h with rfl | h
        · exact Or.inr rfl
        · rw [List.mem_singleton] at h
          subst h
          exact Or.inr rfl
      · rw [List.mem_singleton] at h
        subst h
        exact Or.inl (by simp)
    · rcases ih h with h | h
      · exact Or.inl (by simp [h])
      · exact Or.inr h

theorem count_escF_even (s : List Char) : (escapeCSVField s).count '"' % 2 = 0 := by
  rw [escapeCSVField]
  split_ifs with h
  · have h1 : ('"' :: (escapeQuotesJS s ++ ['"'])).count '"' =
        (escapeQuotesJS s).count '"' + 2 := by
      rw [List.count_cons_self, List.count_append]
      have : (['"'] : List Char).count '"' = 1 := by decide
      omega
    have h2 := count_escQ_even s
    omega
  · push_neg at h
    rw [List.count_eq_zero.mpr h.2.1]

theorem escF_no_newline (s : List Char) (h : '\n' ∉ s) : '\n' ∉ escapeCSVField s := by
  rw [escapeCSVField]
  split_ifs with hc
  · intro hmem
    rcases List.mem_cons.mp hmem with he | hmem
    · exact absurd he (by decide)
    · rcases List.mem_append.mp hmem with hmem | hmem
      · rcases mem_escapeQuotesJS s _ hmem with hm | hm
        · exact h hm
        · exact absurd hm (by decide)
      · rw [List.mem_singleton] at hmem
        exact absurd hmem (by decide)
  · exact h

theorem splitCSVRowAux_plain (s : List Char) (hs : ∀ c ∈ s, c ≠ ',' ∧ c ≠ '"') :
    ∀ (rest acc : List Char),
      splitCSVRowAux (s ++ rest) acc = splitCSVRowAux rest (s.reverse ++ acc) := by
  induction s with
  | nil =>
    intro rest acc
    simp
  | cons c s' ih =>
    intro rest acc
    rw [List.cons_append, splitCSVRowAux_cons,
      if_neg (fun hcond => (hs c (by simp)).1 hcond.1),
      ih (fun x hx => hs x (by simp [hx])) rest (c :: acc)]
    congr 1
    simp

theorem splitCSVRowAux_escQ (s : List Char) :
    ∀ (rest acc : List Char), rest.count '"' % 2 = 1 →
      splitCSVRowAux (escapeQuotesJS s ++ rest) acc =
        splitCSVRowAux rest ((escapeQuotesJS s).reverse ++ acc) := by
  induction s with
  | nil =>
    intro rest acc _
    simp [escapeQuotesJS]
  | cons c s' ih =>
    intro rest acc hodd
    have hcount : ¬((escapeQuotesJS s' ++ rest).count '"' % 2 = 0) := by
      intro hz
      rw [List.count_append] at hz
      have := count_escQ_even s'
      omega
    rw [escapeQuotesJS]
    by_cases hc : c = '"'
    · subst hc
      rw [if_pos rfl]
      have hshape : (['"', '"'] ++ escapeQuotesJS s') ++ rest =
          '"' :: '"' :: (escapeQuotesJS s' ++ rest) := by
        simp
      rw [hshape]
      rw [splitCSVRowAux_cons, if_neg (fun hcond => absurd hcond.1 (by decide))]
      rw [splitCSVRowAux_cons, if_neg (fun hcond => absurd hcond.1 (by decide))]
      rw [ih rest _ hodd]
      congr 1
      simp
    · rw [if_neg hc]
      have hshape : ([c] ++ escapeQuotesJS s') ++ rest =
          c :: (escapeQuotesJS s' ++ rest) := by
        simp
      rw [hshape]
      rw [splitCSVRowAux_cons, if_neg (fun hcond => hcount hcond.2)]
      rw [ih rest _ hodd]
      congr 1
      simp

theorem splitCSVRowAux_field (s : List Char) (rest acc : List Char)
    (heven : rest.count '"' % 2 = 0) :
    splitCSVRowAux (escapeCSVField s ++ rest) acc =
      splitCSVRowAux rest ((escapeCSVField s).reverse ++ acc) := by
  rw [escapeCSVField]
  split_ifs with h
  · have hshape : ('"' :: (escapeQuotesJS s ++ ['"'])) ++ rest =
        '"' :: (escapeQuotesJS s ++ ('"' :: rest)) := by
      simp
    rw [hshape]
    rw [splitCSVRowAux_cons, if_neg (fun hcond => absurd hcond.1 (by decide))]
    rw [splitCSVRowAux_escQ s ('"' :: rest) _ (by
      rw [List.count_cons_self]
      omega)]
    rw [splitCSVRowAux_cons, if_neg (fun hcond => absurd hcond.1 (by decide))]
    congr 1
    simp
  · push_neg at h
    have hs : ∀ c ∈ s, c ≠ ',' ∧ c ≠ '"' := by
      intro c hc
      exact ⟨fun he => h.1 (he ▸ hc), fun he => h.2.1 (he ▸ hc)⟩
    exact splitCSVRowAux_plain s hs rest acc

theorem count_intercalate_escF_even (fs : List (List Char)) :
    (intercalateChar ',' (fs.map escapeCSVField)).count '"' % 2 = 0 := by
  induction fs with
  | nil => rfl
  | cons f fs' ih =>
    cases fs' with
    | nil => simpa using count_escF_even f
    | cons g fs'' =>
      rw [List.map_cons, List.map_cons, intercalateChar_cons_cons, List.count_append]
      have hfold : escapeCSVField g :: List.map escapeCSVField fs'' =
          List.map escapeCSVField (g :: fs'') := (List.map_cons _ _ _).symm
      rw [hfold]
      have hc : ((',' : Char) :: intercalateChar ','
          ((g :: fs'').map escapeCSVField)).count '"' =
          (intercalateChar ',' ((g :: fs'').map escapeCSVField)).count '"' := by
        rw [List.count_cons]
        simp
      rw [hc]
      have h1 := count_escF_even f
      have h2 : (intercalateChar ',' (List.map escapeCSVField (g :: fs''))).count '"' % 2
          = 0 := ih
      omega

theorem splitCSVRowAux_fields :
    ∀ (fs : List (List Char)) (f : List Char) (acc : List Char),
      splitCSVRowAux (intercalateChar ',' ((f :: fs).map escapeCSVField)) acc =
        (acc.reverse ++ escapeCSVField f) :: fs.map escapeCSVField := by
  intro fs
  induction fs with
  | nil =>
    intro f acc
    have h1 : intercalateChar ',' ([f].map escapeCSVField) = escapeCSVField f := rfl
    rw [h1]
    have h2 := splitCSVRowAux_field f [] acc (by rfl)
    rw [List.append_nil] at h2
    rw [h2, splitCSVRowAux]
    simp

  | cons g fs' ih =>
    intro f acc
    rw [List.map_cons, List.map_cons, intercalateChar_cons_cons]
    have hfold : escapeCSVField g :: List.map escapeCSVField fs' =
        List.map escapeCSVField (g :: fs') := (List.map_cons _ _ _).symm
    rw [hfold]
    rw [splitCSVRowAux_field f _ acc (by
      have hc : ((',' : Char) :: intercalateChar ','
          ((g :: fs').map escapeCSVField)).count '"' =
          (intercalateChar ',' ((g :: fs').map escapeCSVField)).count '"' := by
        rw [List.count_cons]
        simp
      rw [hc]
      exact count_intercalate_escF_even (g :: fs'))]
    rw [splitCSVRowAux_cons, if_pos ⟨rfl, count_intercalate_escF_even (g :: fs')⟩]
    rw [ih g []]
    simp

theorem splitCSVRow_intercalate (f : List Char) (fs : List (List Char)) :
    splitCSVRow (intercalateChar ',' ((f :: fs).map escapeCSVField)) =
      (f :: fs).map escapeCSVField := by
  rw [splitCSVRow, splitCSVRowAux_fields fs f []]
  simp

theorem unescapeQuotes_cons_ne (c : Char) (l : List Char) (hc : c ≠ '"') :
    unescapeQuotes (c :: l) = c :: unescapeQuotes l := by
  cases l with
  | nil => rfl
  | cons d rest => rw [unescapeQuotes, if_neg (fun hcond => hc hcond.1)]

theorem unescapeQuotes_pair (l : List Char) :
    unescapeQuotes ('"' :: '"' :: l) = '"' :: unescapeQuotes l := by
  rw [unescapeQuotes, if_pos ⟨rfl, rfl⟩]

theorem unescape_escapeQuotesJS (s : List Char) :
    unescapeQuotes (escapeQuotesJS s) = s := by
  induction s with
  | nil => rfl
  | cons c rest ih =>
    rw [escapeQuotesJS]
    by_cases hc : c = '"'
    · subst hc
      rw [if_pos rfl, List.cons_append, List.cons_append, List.nil_append,
        unescapeQuotes_pair, ih]
    · rw [if_neg hc, List.cons_append, List.nil_append,
        unescapeQuotes_cons_ne c _ hc, ih]

theorem jsSubstring_quoted (mid : List Char) :
    jsSubstring ('"' :: (mid ++ ['"'])) 1 (('"' :: (mid ++ ['"'])).length - 1) = mid := by
  rw [jsSubstring]
  have hlen : ('"' :: (mid ++ ['"'])).length = mid.length + 2 := by simp
  simp only [hlen]
  have ha : min 1 (mid.length + 2) = 1 := by omega
  have hb : min (mid.length + 2 - 1) (mid.length + 2) = mid.length + 1 := by omega
  rw [ha, hb]
  have hmax : max 1 (mid.length + 1) = mid.length + 1 := by omega
  have hmin : min 1 (mid.length + 1) = 1 := by omega
  rw [hmax, hmin]
  have htake : ('"' :: (mid ++ ['"'])).take (mid.length + 1) = '"' :: mid := by
    rw [List.take_succ_cons]
    congr 1
    exact List.take_left' rfl
  rw [htake]
  rfl

theorem cleanField_escapeCSVField (s : List Char) (htrim : trimChars s = s) :
    cleanField (escapeCSVField s) = s := by
  rw [escapeCSVField]
  split_ifs with h
  · have ht : trimChars ('"' :: (escapeQuotesJS s ++ ['"'])) =
        '"' :: (escapeQuotesJS s ++ ['"']) := by
      apply trimChars_noop_of_ends
      · intro a ha
        rw [List.head?_cons, Option.some.injEq] at ha
        subst ha
        decide
      · intro a ha
        rw [getLast?_cons_eq, if_neg (by simp)] at ha
        rw [List.getLast?_concat, Option.some.injEq] at ha
        subst ha
        decide
    have hlast : ('"' :: (escapeQuotesJS s ++ ['"'])).getLast? = some '"' := by
      rw [getLast?_cons_eq, if_neg (by simp), List.getLast?_concat]
    simp only [cleanField, ht]
    rw [if_pos ⟨rfl, hlast⟩]
    rw [jsSubstring_quoted (escapeQuotesJS s), unescape_escapeQuotesJS]
  · push_neg at h
    obtain ⟨hnc, hnq, hnn⟩ := h
    simp only [cleanField, htrim]
    rw [if_neg ?hcond]
    case hcond =>
      rintro ⟨hh, -⟩
      exact hnq (List.mem_of_mem_head? (by rw [hh]; rfl))

/- Line splitting and semicolon splitting against joining. -/

theorem splitLinesAux_cons (c : Char) (rest acc : List Char) :
    splitLinesAux (c :: rest) acc =
      if c = '\n' then
        (if acc.head? = some '\r' then acc.tail.reverse else acc.reverse) ::
          splitLinesAux rest []
      else splitLinesAux rest (c :: acc) := rfl

theorem splitLinesAux_no_newline (l : List Char) :
    ∀ acc, '\n' ∉ l → splitLinesAux l acc = [acc.reverse ++ l] := by
  induction l with
  | nil =>
    intro acc _
    simp [splitLinesAux]
  | cons c rest ih =>
    intro acc h
    rw [splitLinesAux_cons, if_neg (fun he => h (by simp [he])),
      ih (c :: acc) (fun hm => h (by simp [hm]))]
    simp

theorem splitLinesAux_split (p : List Char) :
    ∀ (z acc : List Char), '\n' ∉ p → (acc.reverse ++ p).getLast? ≠ some '\r' →
      splitLinesAux (p ++ '\n' :: z) acc =
        (acc.reverse ++ p) :: splitLinesAux z [] := by
  induction p with
  | nil =>
    intro z acc _ hlast
    rw [List.nil_append, splitLinesAux_cons, if_pos rfl]
    rw [if_neg (fun hh => hlast (by
      rw [List.append_nil, List.getLast?_reverse]
      exact hh))]
    simp
  | cons c p' ih =>
    intro z acc hnl hlast
    rw [List.cons_append, splitLinesAux_cons,
      if_neg (fun he => hnl (by simp [he]))]
    rw [ih z (c :: acc) (fun hm => hnl (by simp [hm])) (fun hh => hlast (by
      rw [show (c :: acc).reverse ++ p' = acc.reverse ++ (c :: p') by simp] at hh
      exact hh))]
    congr 1
    simp

theorem splitLines_intercalate :
    ∀ (pieces : List (List Char)), pieces ≠ [] →
      (∀ p ∈ pieces, '\n' ∉ p ∧ p.getLast? ≠ some '\r') →
      splitLines (intercalateChar '\n' pieces) = pieces := by
  intro pieces
  induction pieces with
  | nil =>
    intro hne _
    cases hne rfl
  | cons p rest ih =>
    intro _ h
    cases rest with
    | nil =>
      rw [splitLines]
      have h1 : intercalateChar '\n' [p] = p := rfl
      rw [h1, splitLinesAux_no_newline p [] (h p (by simp)).1]
      simp
    | cons q rest2 =>
      rw [splitLines, intercalateChar_cons_cons]
      rw [splitLinesAux_split p _ [] (h p (by simp)).1
        (by simpa using (h p (by simp)).2)]
      have h2 : splitLinesAux (intercalateChar '\n' (q :: rest2)) [] =
          splitLines (intercalateChar '\n' (q :: rest2)) := rfl
      rw [h2, ih (by simp) (fun p' hp' => h p' (by simp [hp']))]
      simp

theorem splitOnCharAux_cons (sep c : Char) (rest acc : List Char) :
    splitOnCharAux sep (c :: rest) acc =
      if c = sep then acc.reverse :: splitOnCharAux sep rest []
      else splitOnCharAux sep rest (c :: acc) := rfl

theorem splitOnCharAux_no_sep (sep : Char) (p : List Char) :
    ∀ acc, (∀ x ∈ p, x ≠ sep) → splitOnCharAux sep p acc = [acc.reverse ++ p] := by
  induction p with
  | nil =>
    intro acc _
    simp [splitOnCharAux]
  | cons c rest ih =>
    intro acc h
    rw [splitOnCharAux_cons, if_neg (h c (by simp)),
      ih (c :: acc) (fun x hx => h x (by simp [hx]))]
    simp

theorem splitOnCharAux_piece (sep : Char) (p : List Char) :
    ∀ (z acc : List Char), (∀ x ∈ p, x ≠ sep) →
      splitOnCharAux sep (p ++ sep :: z) acc =
        (acc.reverse ++ p) :: splitOnCharAux sep z [] := by
  induction p with
  | nil =>
    intro z acc _
    rw [List.nil_append, splitOnCharAux_cons, if_pos rfl]
    simp
  | cons c p' ih =>
    intro z acc h
    rw [List.cons_append, splitOnCharAux_cons, if_neg (h c (by simp)),
      ih z (c :: acc) (fun x hx => h x (by simp [hx]))]
    congr 1
    simp

theorem splitOnChar_intercalate (sep : Char) :
    ∀ (ps : List (List Char)), ps ≠ [] →
      (∀ p ∈ ps, ∀ x ∈ p, x ≠ sep) →
      splitOnChar sep (intercalateChar sep ps) = ps := by
  intro ps
  induction ps with
  | nil =>
    intro hne _
    cases hne rfl
  | cons p rest ih =>
    intro _ h
    cases rest with
    | nil =>
      rw [splitOnChar]
      have h1 : intercalateChar sep [p] = p := rfl
      rw [h1, splitOnCharAux_no_sep sep p [] (h p (by simp))]
      simp
    | cons q rest2 =>
      rw [splitOnChar, intercalateChar_cons_cons]
      rw [splitOnCharAux_piece sep p _ [] (h p (by simp))]
      have h2 : splitOnCharAux sep (intercalateChar sep (q :: rest2)) [] =
          splitOnChar sep (intercalateChar sep (q :: rest2)) := rfl
      rw [h2, ih (by simp) (fun p' hp' => h p' (by simp [hp']))]
      simp

/- Field-level facts about an exported row of a benign task. -/

theorem mem_of_getLast? (l : List Char) (a : Char) (h : l.getLast? = some a) : a ∈ l := by
  have hm : a ∈ l.reverse :=
    List.mem_of_mem_head? (by rw [List.head?_reverse, h]; rfl)
  exact List.mem_reverse.mp hm

theorem ends_of_all_not_ws (l : List Char) (h : ∀ c ∈ l, isWS c = false) :
    (∀ a, l.head? = some a → isWS a = false) ∧
    (∀ a, l.getLast? = some a → isWS a = false) :=
  ⟨fun a ha => h a (List.mem_of_mem_head? (by rw [ha]; rfl)),
   fun a ha => h a (mem_of_getLast? l a ha)⟩

theorem escF_ends (s : List Char)
    (hh : ∀ a, s.head? = some a → isWS a = false)
    (hl : ∀ a, s.getLast? = some a → isWS a = false) :
    (∀ a, (escapeCSVField s).head? = some a → isWS a = false) ∧
    (∀ a, (escapeCSVField s).getLast? = some a → isWS a = false) := by
  rw [escapeCSVField]
  split_ifs with hc
  · constructor
    · intro a ha
      rw [List.head?_cons, Option.some.injEq] at ha
      subst ha
      decide
    · intro a ha
      rw [getLast?_cons_eq, if_neg (by simp), List.getLast?_concat,
        Option.some.injEq] at ha
      subst ha
      decide
  · exact ⟨hh, hl⟩

theorem intStr_ends (n : Int) :
    (∀ a, (intStr n).head? = some a → isWS a = false) ∧
    (∀ a, (intStr n).getLast? = some a → isWS a = false) :=
  ends_of_all_not_ws _ (fun c hc => (intStr_char_props n c hc).1)

theorem boolStr_ends (b : Bool) :
    (∀ a, (boolStr b).head? = some a → isWS a = false) ∧
    (∀ a, (boolStr b).getLast? = some a → isWS a = false) :=
  ends_of_all_not_ws _ (fun c hc => (mem_boolStr b c hc).1)

theorem tagsJoin_ends (tags : List (List Char))
    (h : ∀ tg ∈ tags, tg ≠ [] ∧ trimChars tg = tg) :
    (∀ a, (intercalateChar ';' tags).head? = some a → isWS a = false) ∧
    (∀ a, (intercalateChar ';' tags).getLast? = some a → isWS a = false) :=
  ⟨head?_not_ws_intercalate ';' (by decide) tags
      (fun p hp => head_not_ws_of_trim_eq p (h p hp).2),
   getLast?_not_ws_intercalate ';' (by decide) tags
      (fun p hp => getLast_not_ws_of_trim_eq p (h p hp).2)⟩

theorem exportFields_ends (t : Todo) (h : BenignTodo t) :
    ∀ s ∈ exportFields t,
      (∀ a, s.head? = some a → isWS a = false) ∧
      (∀ a, s.getLast? = some a → isWS a = false) := by
  obtain ⟨htne, httrim, htnl, hidtrim, hidnl, htags, htagfb⟩ := h
  intro s hs
  simp only [exportFields, List.mem_cons, List.mem_singleton,
    List.not_mem_nil, or_false] at hs
  rcases hs with rfl | rfl | rfl | rfl | rfl | rfl | rfl
  · exact ⟨head_not_ws_of_trim_eq _ hidtrim, getLast_not_ws_of_trim_eq _ hidtrim⟩
  · exact ⟨head_not_ws_of_trim_eq _ httrim, getLast_not_ws_of_trim_eq _ httrim⟩
  · exact boolStr_ends _
  · exact intStr_ends _
  · exact boolStr_ends _
  · exact boolStr_ends _
  · exact tagsJoin_ends _ (fun tg htg => ⟨(htags tg htg).1, (htags tg htg).2.1⟩)

theorem trimChars_exportRow (t : Todo) (h : BenignTodo t) :
    trimChars (exportRow t) = exportRow t := by
  have hmap : ∀ f ∈ (exportFields t).map escapeCSVField,
      (∀ a, f.head? = some a → isWS a = false) ∧
      (∀ a, f.getLast? = some a → isWS a = false) := by
    intro f hf
    obtain ⟨s, hs, rfl⟩ := List.mem_map.mp hf
    exact escF_ends s (exportFields_ends t h s hs).1 (exportFields_ends t h s hs).2
  rw [exportRow]
  exact trimChars_noop_of_ends _
    (head?_not_ws_intercalate ',' (by decide) _ (fun f hf => (hmap f hf).1))
    (getLast?_not_ws_intercalate ',' (by decide) _ (fun f hf => (hmap f hf).2))

theorem exportRow_no_newline (t : Todo) (h : BenignTodo t) : '\n' ∉ exportRow t := by
  obtain ⟨htne, httrim, htnl, hidtrim, hidnl, htags, htagfb⟩ := h
  intro hmem
  rcases mem_intercalateChar ',' _ '\n' hmem with ⟨f, hf, hnf⟩ | he
  · obtain ⟨s, hs, rfl⟩ := List.mem_map.mp hf
    refine absurd hnf (escF_no_newline s ?_)
    simp only [exportFields, List.mem_cons, List.mem_singleton,
      List.not_mem_nil, or_false] at hs
    rcases hs with rfl | rfl | rfl | rfl | rfl | rfl | rfl
    · exact hidnl
    · exact htnl
    · exact fun hm => (mem_boolStr _ _ hm).2.2.2 rfl
    · exact fun hm => (intStr_char_props _ _ hm).2.2.2.1 rfl
    · exact fun hm => (mem_boolStr _ _ hm).2.2.2 rfl
    · exact fun hm => (mem_boolStr _ _ hm).2.2.2 rfl
    · intro hm
      rcases mem_intercalateChar ';' _ '\n' hm with ⟨tg, htg, hntg⟩ | he2
      · exact (htags tg htg).2.2.2 hntg
      · exact absurd he2 (by decide)
  · exact absurd he (by decide)

theorem exportRow_last_not_cr (t : Todo) (h : BenignTodo t) :
    (exportRow t).getLast? ≠ some '\r' := by
  intro hlast
  have hmap : ∀ f ∈ (exportFields t).map escapeCSVField,
      (∀ a, f.getLast? = some a → isWS a = false) := by
    intro f hf
    obtain ⟨s, hs, rfl⟩ := List.mem_map.mp hf
    exact (escF_ends s (exportFields_ends t h s hs).1 (exportFields_ends t h s hs).2).2
  have hws := getLast?_not_ws_intercalate ',' (by decide) _ hmap '\r'
    (by rw [← exportRow]; exact hlast)
  exact absurd hws (by decide)

/- The per-row round trip: parsing an exported row of a benign task. -/

theorem getField_export (v0 v1 v2 v3 v4 v5 v6 : List Char) :
    getField (headersOf exportHeaderLine) [v0, v1, v2, v3, v4, v5, v6] (jstr "text")
        = some v1 ∧
    getField (headersOf exportHeaderLine) [v0, v1, v2, v3, v4, v5, v6] (jstr "tags")
        = some v6 ∧
    getField (headersOf exportHeaderLine) [v0, v1, v2, v3, v4, v5, v6] (jstr "createdat")
        = some v3 ∧
    getField (headersOf exportHeaderLine) [v0, v1, v2, v3, v4, v5, v6] (jstr "completed")
        = some v2 ∧
    getField (headersOf exportHeaderLine) [v0, v1, v2, v3, v4, v5, v6] (jstr "isfortoday")
        = some v4 ∧
    getField (headersOf exportHeaderLine) [v0, v1, v2, v3, v4, v5, v6]
        (jstr "isrecurring") = some v5 :=
  ⟨rfl, rfl, rfl, rfl, rfl, rfl⟩

theorem trimChars_boolStr (b : Bool) : trimChars (boolStr b) = boolStr b := by
  cases b <;> decide

theorem trimChars_intStr (n : Int) : trimChars (intStr n) = intStr n :=
  trimChars_of_all_not_ws _ (fun c hc => (intStr_char_props n c hc).1)

theorem trimChars_tagsJoin (tags : List (List Char))
    (h : ∀ tg ∈ tags, tg ≠ [] ∧ trimChars tg = tg) :
    trimChars (intercalateChar ';' tags) = intercalateChar ';' tags :=
  trimChars_noop_of_ends _ (tagsJoin_ends tags h).1 (tagsJoin_ends tags h).2

theorem parseBoolField_boolStr (b : Bool) : parseBoolField (some (boolStr b)) = b := by
  cases b <;> decide

theorem tagsJoin_ne_nil (tg : List Char) (rest : List (List Char)) (h : tg ≠ []) :
    intercalateChar ';' (tg :: rest) ≠ [] := by
  cases rest with
  | nil => exact h
  | cons q r =>
    rw [intercalateChar_cons_cons]
    intro he
    simp at he

theorem exportRow_ne_nil (t : Todo) : exportRow t ≠ [] := by
  rw [exportRow]
  have h1 : (exportFields t).map escapeCSVField =
      escapeCSVField t.id :: escapeCSVField t.text ::
        [boolStr t.completed, intStr t.createdAt, boolStr t.isForToday,
         boolStr t.isRecurring, intercalateChar ';' t.tags].map escapeCSVField := rfl
  rw [h1, intercalateChar_cons_cons]
  intro he
  simp at he

theorem csvValues_exportRow (t : Todo) (h : BenignTodo t) :
    csvValues (exportRow t) = exportFields t := by
  have hsplit : splitCSVRow (intercalateChar ','
      ((exportFields t).map escapeCSVField)) = (exportFields t).map escapeCSVField :=
    splitCSVRow_intercalate t.id
      [t.text, boolStr t.completed, intStr t.createdAt, boolStr t.isForToday,
       boolStr t.isRecurring, intercalateChar ';' t.tags]
  obtain ⟨htne, httrim, htnl, hidtrim, hidnl, htags, htagfb⟩ := h
  rw [csvValues, exportRow, hsplit, List.map_map]
  apply map_eq_self_of_fixed
  intro s hs
  have hsc : cleanField (escapeCSVField s) = s := by
    apply cleanField_escapeCSVField
    simp only [exportFields, List.mem_cons, List.mem_singleton,
      List.not_mem_nil, or_false] at hs
    rcases hs with rfl | rfl | rfl | rfl | rfl | rfl | rfl
    · exact hidtrim
    · exact httrim
    · exact trimChars_boolStr _
    · exact trimChars_intStr _
    · exact trimChars_boolStr _
    · exact trimChars_boolStr _
    · exact trimChars_tagsJoin _ (fun tg htg => ⟨(htags tg htg).1, (htags tg htg).2.1⟩)
  exact hsc

theorem parseRow_exportRow (t : Todo) (newId : List Char) (now : Int)
    (h : BenignTodo t) :
    parseRow (headersOf exportHeaderLine) false now newId (exportRow t) =
      some ⟨newId, t.text, t.completed, jsOr (jsParseInt (intStr t.createdAt)) now,
        t.isForToday, t.isRecurring, t.tags⟩ := by
  have htr := trimChars_exportRow t h
  have hvals := csvValues_exportRow t h
  have hgf := getField_export t.id t.text (boolStr t.completed) (intStr t.createdAt)
    (boolStr t.isForToday) (boolStr t.isRecurring) (intercalateChar ';' t.tags)
  have hgf_text : getField (headersOf exportHeaderLine) (exportFields t) (jstr "text")
      = some t.text := hgf.1
  have hgf_tags : getField (headersOf exportHeaderLine) (exportFields t) (jstr "tags")
      = some (intercalateChar ';' t.tags) := hgf.2.1
  have hgf_cat : getField (headersOf exportHeaderLine) (exportFields t)
      (jstr "createdat") = some (intStr t.createdAt) := hgf.2.2.1
  have hgf_c : getField (headersOf exportHeaderLine) (exportFields t) (jstr "completed")
      = some (boolStr t.completed) := hgf.2.2.2.1
  have hgf_ft : getField (headersOf exportHeaderLine) (exportFields t)
      (jstr "isfortoday") = some (boolStr t.isForToday) := hgf.2.2.2.2.1
  have hgf_r : getField (headersOf exportHeaderLine) (exportFields t)
      (jstr "isrecurring") = some (boolStr t.isRecurring) := hgf.2.2.2.2.2
  obtain ⟨htne, httrim, htnl, hidtrim, hidnl, htags, htagfb⟩ := h
  simp only [parseRow, htr, hvals, hgf_text, hgf_tags, hgf_cat, hgf_c, hgf_ft, hgf_r,
    Option.getD_some, parseBoolField_boolStr]
  rw [if_neg (exportRow_ne_nil t), if_neg htne, if_neg Bool.false_ne_true]
  by_cases htg : t.tags = []
  · rw [htg]
    have hj : intercalateChar ';' ([] : List (List Char)) = [] := rfl
    rw [hj, if_pos rfl, htagfb htg]
  · obtain ⟨tg0, tgs, heq⟩ : ∃ tg0 tgs, t.tags = tg0 :: tgs := by
      cases htags2 : t.tags with
      | nil => exact absurd htags2 htg
      | cons a l => exact ⟨a, l, rfl⟩
    rw [heq]
    rw [if_neg (tagsJoin_ne_nil tg0 tgs (htags tg0 (by rw [heq]; simp)).1)]
    rw [splitOnChar_intercalate ';' (tg0 :: tgs) (by simp)
      (fun p hp x hx he => (htags p (by rw [heq]; exact hp)).2.2.1 (he ▸ hx))]
    rw [map_eq_self_of_fixed _ _
      (fun tg htg2 => (htags tg (by rw [heq]; exact htg2)).2.1)]
    rw [List.filter_eq_self.mpr (fun tg htg2 => by
      simpa using (htags tg (by rw [heq]; exact htg2)).1)]

theorem parseRows_exportRows (idGen : Nat → List Char) (now : Int) :
    ∀ (ts : List Todo) (k : Nat), (∀ t ∈ ts, BenignTodo t) →
      (parseRows (headersOf exportHeaderLine) false now idGen
          (ts.map exportRow) k).map roundTripView = ts.map roundTripView ∧
      (parseRows (headersOf exportHeaderLine) false now idGen
          (ts.map exportRow) k).length = ts.length := by
  intro ts
  induction ts with
  | nil =>
    intro k _
    exact ⟨rfl, rfl⟩
  | cons t rest ih =>
    intro k hb
    have hrest := ih (k + 1) (fun x hx => hb x (by simp [hx]))
    simp only [List.map_cons, parseRows,
      parseRow_exportRow t (idGen k) now (hb t (by simp))]
    constructor
    · exact congrArg₂ List.cons rfl hrest.1
    · rw [List.length_cons, List.length_cons, hrest.2]

/-- C1 (amended): for every collection of tasks whose text is non-empty, trimmed and
    newline-free, whose id is trimmed and newline-free, whose tags are non-empty,
    trimmed, semicolon-free and newline-free, and in which a task with an empty tag
    list has no #tags extractable from its text, exporting via the full CSV export
    and importing the produced text in replace-all mode yields a collection of the
    same length in which, position by position, text, completed, isForToday,
    isRecurring and the tags list (hence also the tag set) equal those of the
    original task; ids may differ. -/
theorem csv_export_import_roundTrip_benign (l : List Todo) (idGen : Nat → List Char)
    (now : Int) (h : ∀ t ∈ l, BenignTodo t) :
    ∃ ts, parseCSVTextToTodos (commonCSVExport l) false idGen now = Except.ok ts ∧
      ts.length = l.length ∧ ts.map roundTripView = l.map roundTripView := by
  have hsplit : splitLines (commonCSVExport l) =
      exportHeaderLine :: l.map exportRow := by
    rw [commonCSVExport]
    apply splitLines_intercalate _ (by simp)
    intro p hp
    rcases List.mem_cons.mp hp with rfl | hp
    · exact ⟨by decide, by decide⟩
    · obtain ⟨t, ht, rfl⟩ := List.mem_map.mp hp
      exact ⟨exportRow_no_newline t (h t ht), exportRow_last_not_cr t (h t ht)⟩
  refine ⟨parseRows (headersOf exportHeaderLine) false now idGen
    (l.map exportRow) 0, ?_, ?_, ?_⟩
  · simp only [parseCSVTextToTodos, hsplit]
    rw [if_pos (by decide)]
  · exact (parseRows_exportRows idGen now l 0 h).2
  · exact (parseRows_exportRows idGen now l 0 h).1

theorem csv_export_import_roundTrip_benign_witness :
    ∃ ts, parseCSVTextToTodos (commonCSVExport
        [⟨jstr "u1", jstr "hello #x", true, 42, true, false, [jstr "x"]⟩,
         ⟨jstr "u2", jstr "b,c", false, 3, false, true, []⟩]) false
        (fun n => natToDigits n) 9 = Except.ok ts ∧
      ts.length = ([⟨jstr "u1", jstr "hello #x", true, 42, true, false, [jstr "x"]⟩,
         ⟨jstr "u2", jstr "b,c", false, 3, false, true, []⟩] : List Todo).length ∧
      ts.map roundTripView =
        ([⟨jstr "u1", jstr "hello #x", true, 42, true, false, [jstr "x"]⟩,
          ⟨jstr "u2", jstr "b,c", false, 3, false, true, []⟩] : List Todo).map
          roundTripView :=
  csv_export_import_roundTrip_benign
    [⟨jstr "u1", jstr "hello #x", true, 42, true, false, [jstr "x"]⟩,
     ⟨jstr "u2", jstr "b,c", false, 3, false, true, []⟩]
    (fun n => natToDigits n) 9
    (by
      intro t ht
      rcases List.mem_cons.mp ht with rfl | ht
      · exact ⟨by decide, by decide, by decide, by decide, by decide, by decide,
          fun he => absurd he (by decide)⟩
      · rcases List.mem_singleton.mp ht with rfl
        exact ⟨by decide, by decide, by decide, by decide, by decide, by decide,
          fun _ => by decide⟩)

/-- C1 counterexample: a task whose text carries a leading blank breaks the
    round trip, because the importer trims every field value: the single task with
    text " a" comes back with text "a". -/
theorem csv_export_import_roundTrip_cex :
    parseCSVTextToTodos (commonCSVExport
        [⟨jstr "i", jstr " a", false, 5, false, false, []⟩]) false (fun _ => []) 7 =
      Except.ok [⟨[], jstr "a", false, 5, false, false, []⟩] ∧
    jstr "a" ≠ jstr " a" :=
  ⟨by rfl, by decide⟩

end TodoApp
